import Mathlib

/-
Verification of the hierarchical-folder / storage-quota core of the
StorageManagementSystem web application.

The backend (Express + Mongoose) is shallowly embedded: each Mongo
collection becomes a list of records, each route handler becomes a pure
function from a database state (plus request parameters) to a new
database state together with an `Except`-style outcome.  JavaScript
string operations used by the folder code (`split('/')`, `join('/')`,
first-occurrence `String.prototype.replace` including its `$`-pattern
expansion, and the Mongo `$regex` prefix query built from an unescaped
folder path) are modelled character-exactly on `List Char`.

Sources embedded:
  - Folder model (`getFullPath` method)          : src/unnamed/part_000
  - folder routes (create/update/delete/duplicate): src/backend/routes/folders.js
  - file routes (upload/delete/duplicate, getFileType): src/backend/routes/files.js
  - user schema (`hasEnoughStorage`, storage fields) : src/backend/models/Note.js (user part)
-/

set_option maxHeartbeats 1000000
set_option maxRecDepth 100000

namespace SMS

/-! ## JavaScript string primitives, modelled on `List Char` -/

/-- JavaScript `s.split('/')`: splits on every `'/'`, keeping empty segments;
`"".split('/') = [""]`. -/
def splitSlash : List Char → List (List Char)
  | [] => [[]]
  | c :: cs =>
    match splitSlash cs with
    | [] => [[]]
    | s :: ss => if c = '/' then [] :: s :: ss else (c :: s) :: ss

/-- JavaScript `parts.join('/')`. -/
def joinSlash : List (List Char) → List Char
  | [] => []
  | [s] => s
  | s :: s2 :: ss => s ++ '/' :: joinSlash (s2 :: ss)

/-- Replace the last element of a list (JS `parts[parts.length - 1] = x`).
`split` never returns an empty array, so the `[]` case is unreachable. -/
def setLast (x : List Char) : List (List Char) → List (List Char)
  | [] => []
  | [_] => [x]
  | s :: s2 :: ss => s :: setLast x (s2 :: ss)

/-- The rename path fix-up of folders.js lines 225-227:
`pathParts = path.split('/'); pathParts[last] = name; path = pathParts.join('/')`. -/
def replaceLastSeg (path nm : List Char) : List Char :=
  joinSlash (setLast nm (splitSlash path))

/-- Index of the first occurrence of `pat` in `s`, if any
(the search underlying JS `String.prototype.replace` with a string pattern). -/
def findSub (pat : List Char) : List Char → Option Nat
  | [] => if pat.isPrefixOf ([] : List Char) then some 0 else none
  | c :: cs =>
    if pat.isPrefixOf (c :: cs) then some 0
    else (findSub pat cs).map (· + 1)

/-- Expansion of `$`-patterns in a JS string-replace replacement:
`$$` → `$`, `$&` → matched text, `` $` `` → text before the match,
`$'` → text after the match; any other `$` is literal.  The backquote and
apostrophe are written via `Char.ofNat` (codes 96 and 39). -/
def expandRepl (matched before after : List Char) : List Char → List Char
  | [] => []
  | '$' :: d :: rest =>
    if d = '$' then '$' :: expandRepl matched before after rest
    else if d = '&' then matched ++ expandRepl matched before after rest
    else if d = Char.ofNat 96 then before ++ expandRepl matched before after rest
    else if d = Char.ofNat 39 then after ++ expandRepl matched before after rest
    else '$' :: d :: expandRepl matched before after rest
  | c :: rest => c :: expandRepl matched before after rest

/-- JavaScript `s.replace(pat, rep)` with a *string* pattern: replaces the
first occurrence only, expanding `$`-patterns in the replacement
(folders.js line 236: `subfolder.path.replace(oldPath, folder.path)`). -/
def jsReplaceOnce (s pat rep : List Char) : List Char :=
  match findSub pat s with
  | none => s
  | some i =>
    let before := s.take i
    let after := s.drop (i + pat.length)
    before ++ expandRepl pat before after rep ++ after

/-- Substring test (JS `String.prototype.includes`), used by `getFileType`. -/
def containsSub (pat : List Char) : List Char → Bool
  | [] => pat.isPrefixOf ([] : List Char)
  | c :: cs => pat.isPrefixOf (c :: cs) || containsSub pat cs

/-- JavaScript `String.prototype.trim` (also what the express-validator
`.trim()` sanitizer applies), written so that it kernel-reduces. -/
def jsTrim (s : String) : String :=
  String.mk (((s.data.dropWhile Char.isWhitespace).reverse.dropWhile Char.isWhitespace).reverse)

/-- JavaScript `String.prototype.startsWith` (kernel-computable). -/
def startsWithStr (p s : String) : Bool := p.data.isPrefixOf s.data

/-- JavaScript `s.split(',')`, used for the upload tag list. -/
def splitComma : List Char → List (List Char)
  | [] => [[]]
  | c :: cs =>
    match splitComma cs with
    | [] => [[]]
    | s :: ss => if c = ',' then [] :: s :: ss else (c :: s) :: ss

/-! ## A small regex engine for the Mongo `$regex` prefix query

folders.js line 232 issues `path: { $regex: `^${oldPath}/` }` with the raw
(unescaped) old path interpolated into the pattern.  We model the PCRE
fragment actually reachable from folder names here: literal characters,
`.`, the postfix quantifiers `*`, `+`, `?`, a leading `^` anchor and
backslash escapes.  Patterns using the remaining PCRE constructs
(`( ) [ ] { } | $`, a non-leading `^`, or alternation) make the embedded
operation abort with a dedicated `unsupportedPattern` outcome, marking the
model boundary; no theorem below depends on that branch. -/

inductive RAtom where
  | ch (c : Char)
  | dot
  deriving Repr, DecidableEq

inductive RPiece where
  | once (a : RAtom)
  | star (a : RAtom)
  | plus (a : RAtom)
  | opt (a : RAtom)
  deriving Repr, DecidableEq

/-- Characters with a special meaning inside the PCRE fragment we model. -/
def regexMeta : List Char :=
  ['^', '$', '.', '*', '+', '?', '(', ')', '[', ']', '{', '}', '|', '\\']

def parseAtoms : List Char → Option (List RPiece)
  | [] => some []
  | '\\' :: c :: rest =>
    if c ∈ regexMeta ∨ c = '/' then
      match rest with
      | '*' :: r2 => (parseAtoms r2).map (RPiece.star (RAtom.ch c) :: ·)
      | '+' :: r2 => (parseAtoms r2).map (RPiece.plus (RAtom.ch c) :: ·)
      | '?' :: r2 => (parseAtoms r2).map (RPiece.opt (RAtom.ch c) :: ·)
      | other => (parseAtoms other).map (RPiece.once (RAtom.ch c) :: ·)
    else none
  | c :: rest =>
    if c ∈ ['^', '$', '(', ')', '[', ']', '{', '}', '|', '\\'] then none
    else if c ∈ ['*', '+', '?'] then none
    else
      let a := if c = '.' then RAtom.dot else RAtom.ch c
      match rest with
      | '*' :: r2 => (parseAtoms r2).map (RPiece.star a :: ·)
      | '+' :: r2 => (parseAtoms r2).map (RPiece.plus a :: ·)
      | '?' :: r2 => (parseAtoms r2).map (RPiece.opt a :: ·)
      | other => (parseAtoms other).map (RPiece.once a :: ·)

structure MiniRegex where
  anchored : Bool
  pieces : List RPiece
  deriving Repr, DecidableEq

/-- Parse the concrete pattern string handed to Mongo. -/
def parseMongoRegex : List Char → Option MiniRegex
  | '^' :: rest => (parseAtoms rest).map (fun ps => ⟨true, ps⟩)
  | p => (parseAtoms p).map (fun ps => ⟨false, ps⟩)

def matchAtom : RAtom → Char → Bool
  | RAtom.dot, c => !(c = '\n')
  | RAtom.ch a, c => a = c

/-- Fuel-indexed backtracking matcher: does the piece list match some
prefix of the subject?  Every recursive call strictly decreases
`ps.length + s.length`, so the wrappers below hand it that quantity plus
one as fuel and the `0` case is never reached. -/
def matchPiecesF : Nat → List RPiece → List Char → Bool
  | 0, _, _ => false
  | _ + 1, [], _ => true
  | _ + 1, RPiece.once _ :: _, [] => false
  | fuel + 1, RPiece.once a :: ps, c :: cs => matchAtom a c && matchPiecesF fuel ps cs
  | fuel + 1, RPiece.opt _ :: ps, [] => matchPiecesF fuel ps []
  | fuel + 1, RPiece.opt a :: ps, c :: cs =>
    matchPiecesF fuel ps (c :: cs) || (matchAtom a c && matchPiecesF fuel ps cs)
  | fuel + 1, RPiece.star _ :: ps, [] => matchPiecesF fuel ps []
  | fuel + 1, RPiece.star a :: ps, c :: cs =>
    matchPiecesF fuel ps (c :: cs) || (matchAtom a c && matchPiecesF fuel (RPiece.star a :: ps) cs)
  | _ + 1, RPiece.plus _ :: _, [] => false
  | fuel + 1, RPiece.plus a :: ps, c :: cs =>
    matchAtom a c && matchPiecesF fuel (RPiece.star a :: ps) cs

/-- Does the piece list match some prefix of the subject? -/
def matchPieces (ps : List RPiece) (s : List Char) : Bool :=
  matchPiecesF (ps.length + s.length + 1) ps s

def matchAnywhere (ps : List RPiece) : List Char → Bool
  | [] => matchPieces ps []
  | c :: cs => matchPieces ps (c :: cs) || matchAnywhere ps cs

/-- Whether the regex accepts (finds a match somewhere in) the subject. -/
def regexAccepts (r : MiniRegex) (s : List Char) : Bool :=
  if r.anchored then matchPieces r.pieces s else matchAnywhere r.pieces s

/-! ## Data model

Mongo ObjectIds are modelled as `Nat`; fresh ids come from `DB.nextId`.
JavaScript numbers holding byte counts are modelled as `Int` (all the
arithmetic the routes perform on them is exact integer arithmetic).
Fields of the Mongoose schemas that no embedded route reads or writes
(timestamps, `size`/`itemCount` on folders, `downloadCount`, …) are
omitted. -/

/-- Folder document (src/unnamed/part_000). `description` is `Option`
because the schema field may be unset. -/
structure Folder where
  fid : Nat
  name : String
  description : Option String
  owner : Nat
  parentFolder : Option Nat
  path : String
  isFavorite : Bool
  color : String
  deriving Repr, DecidableEq

/-- File document, with the fields the routes in files.js populate. -/
structure FileRec where
  fid : Nat
  name : String
  originalName : String
  type : String
  mimeType : String
  size : Int
  path : String
  owner : Nat
  folder : Option Nat
  tags : List String
  description : String
  deriving Repr, DecidableEq

/-- Note document (src/backend/models/Note.js), fields the folder routes touch. -/
structure Note where
  fid : Nat
  title : String
  content : String
  owner : Nat
  folder : Option Nat
  deriving Repr, DecidableEq

/-- User document (user schema in src/backend/models/Note.js). -/
structure User where
  uid : Nat
  storageUsed : Int
  storageLimit : Int
  deriving Repr, DecidableEq

/-- The persistent state: the four Mongo collections, the blob store of
physically written upload paths, and a fresh-id counter. -/
structure DB where
  folders : List Folder
  files : List FileRec
  notes : List Note
  users : List User
  blobs : List String
  nextId : Nat
  deriving Repr, DecidableEq

/-- The structured failures the embedded routes report (4xx responses). -/
inductive ApiErr where
  | validationFailed
  | notFound
  | duplicateName
  | parentNotFound
  | notEmpty (itemCount : Nat)
  | quotaExceeded
  | noFiles
  | unsupportedPattern
  deriving Repr, DecidableEq

def findFolder (fs : List Folder) (fid : Nat) : Option Folder :=
  fs.find? (fun g => g.fid == fid)

/-- Folder method `getFullPath` (src/unnamed/part_000 lines 68-74): walk
`parentFolder` links to the root, joining names with `/`.  The fuel
argument bounds the recursion depth; `none` models a crash (missing
parent id) or divergence (parent cycle), neither of which the JS handles. -/
def getFullPath : Nat → List Folder → Folder → Option String
  | 0, _, _ => none
  | fuel + 1, fs, f =>
    match f.parentFolder with
    | none => some f.name
    | some pid =>
      match findFolder fs pid with
      | none => none
      | some p => (getFullPath fuel fs p).map (fun pp => pp ++ "/" ++ f.name)

/-- files.js lines 408-413: MIME-type classifier. -/
def getFileType (mimeType : String) : String :=
  if startsWithStr "image/" mimeType then "image"
  else if mimeType == "application/pdf" then "pdf"
  else if containsSub "document".data mimeType.data || containsSub "text".data mimeType.data then
    "document"
  else "other"

/-- User method `hasEnoughStorage` (models/Note.js lines 135-137):
`(this.storageUsed + fileSize) <= this.storageLimit`. -/
def hasEnoughStorage (u : User) (fileSize : Int) : Bool :=
  u.storageUsed + fileSize ≤ u.storageLimit

/-- The quota-reservation write (files.js line 164 and 390):
`req.user.storageUsed += totalSize`. -/
def reserveApply (storageUsed n : Int) : Int := storageUsed + n

/-- The quota-release write (files.js line 273):
`req.user.storageUsed = Math.max(0, req.user.storageUsed - file.size)`. -/
def releaseApply (storageUsed n : Int) : Int := max 0 (storageUsed - n)

/-- express-validator check for folder names: trimmed length in 1..255. -/
def validName (s : String) : Bool := 1 ≤ (jsTrim s).length && (jsTrim s).length ≤ 255

/-- express-validator check for descriptions: trimmed length at most 500. -/
def validDescription : Option String → Bool
  | none => true
  | some d => (jsTrim d).length ≤ 500

/-- JavaScript truthiness of an optional string (`undefined` and `""` are falsy). -/
def jsStrTruthy : Option String → Bool
  | some s => !(s == "")
  | none => false

/-! ## Folder routes (src/backend/routes/folders.js) -/

/-- POST / (create folder, folders.js lines 89-168).  Request fields
`name`, `description`, `parentFolder`, `color`; the validator trims
`name` and `description` in place. -/
def createFolder (db : DB) (uid : Nat) (name : String) (description : Option String)
    (parentFolder : Option Nat) (color : Option String) : Except ApiErr (DB × Folder) :=
  if !(validName name && validDescription description) then .error .validationFailed
  else
    let nm := jsTrim name
    let desc := description.map jsTrim
    if (db.folders.find? (fun g =>
          g.name == nm && g.owner == uid && g.parentFolder == parentFolder)).isSome then
      .error .duplicateName
    else
      let pathRes : Except ApiErr String :=
        match parentFolder with
        | none => .ok nm
        | some pid =>
          match db.folders.find? (fun g => g.fid == pid && g.owner == uid) with
          | none => .error .parentNotFound
          | some parent => .ok (parent.path ++ "/" ++ nm)
      match pathRes with
      | .error e => .error e
      | .ok path =>
        let f : Folder :=
          { fid := db.nextId, name := nm, description := desc, owner := uid,
            parentFolder := parentFolder, path := path, isFavorite := false,
            color := if jsStrTruthy color then color.getD "" else "#3B82F6" }
        .ok ({ db with folders := db.folders ++ [f], nextId := db.nextId + 1 }, f)

/-- The unconditional field updates at folders.js lines 242-245
(`if (name) …`, `if (description !== undefined) …`, `if (color) …`,
`if (isFavorite !== undefined) …`); `name`/`description` arrive trimmed. -/
def applyMeta (f : Folder) (name description color : Option String)
    (isFavorite : Option Bool) : Folder :=
  let f1 := if jsStrTruthy name then { f with name := name.getD "" } else f
  let f2 := match description with
    | some d => { f1 with description := some d }
    | none => f1
  let f3 := if jsStrTruthy color then { f2 with color := color.getD "" } else f2
  match isFavorite with
  | some b => { f3 with isFavorite := b }
  | none => f3

/-- PUT /:id (update folder, folders.js lines 171-262).  When the name
changes: duplicate check among siblings, last-path-segment rewrite for the
folder itself, then the Mongo `$regex` subtree query and the JS
first-occurrence `replace` for every matching folder of the same owner. -/
def updateFolder (db : DB) (uid fid : Nat) (name description color : Option String)
    (isFavorite : Option Bool) : Except ApiErr DB :=
  if !((match name with | some s => validName s | none => true) && validDescription description) then
    .error .validationFailed
  else
    let nm? := name.map jsTrim
    let desc? := description.map jsTrim
    match db.folders.find? (fun g => g.fid == fid && g.owner == uid) with
    | none => .error .notFound
    | some folder =>
      let doRename := match nm? with
        | some nm => !(nm == "") && !(nm == folder.name)
        | none => false
      if doRename then
        let nm := nm?.getD ""
        if (db.folders.find? (fun g => g.name == nm && g.owner == uid &&
              g.parentFolder == folder.parentFolder && !(g.fid == folder.fid))).isSome then
          .error .duplicateName
        else
          let oldPath := folder.path
          let newPath := String.mk (replaceLastSeg oldPath.data nm.data)
          match parseMongoRegex ('^' :: oldPath.data ++ ['/']) with
          | none => .error .unsupportedPattern
          | some r =>
            let fld1 := db.folders.map (fun g =>
              if g.owner == uid && regexAccepts r g.path.data then
                { g with path := String.mk (jsReplaceOnce g.path.data oldPath.data newPath.data) }
              else g)
            let folder' := applyMeta { folder with path := newPath } nm? desc? color isFavorite
            .ok { db with folders := fld1.map (fun g => if g.fid == folder.fid then folder' else g) }
      else
        let folder' := applyMeta folder nm? desc? color isFavorite
        .ok { db with folders := db.folders.map (fun g => if g.fid == folder.fid then folder' else g) }

mutual
/-- Helper `deleteFolder` (folders.js lines 313-330): recursively delete
subfolders, then the files and notes directly in this folder, then the
folder record itself.  Fuel bounds the recursion depth; `none` models
stack-overflow divergence (a parent cycle), which the JS does not handle. -/
def deleteFolder : Nat → DB → Nat → Nat → Option DB
  | 0, _, _, _ => none
  | fuel + 1, db, folderId, userId =>
    match deleteSubs fuel db
        (db.folders.filter (fun g => g.parentFolder == some folderId && g.owner == userId))
        userId with
    | none => none
    | some db1 =>
      some { db1 with
        files := db1.files.filter (fun x => !(x.folder == some folderId && x.owner == userId)),
        notes := db1.notes.filter (fun x => !(x.folder == some folderId && x.owner == userId)),
        folders := db1.folders.eraseP (fun g => g.fid == folderId) }
termination_by fuel _ _ _ => (fuel, 0)

/-- The `for (const subfolder of subfolders)` loop inside `deleteFolder`. -/
def deleteSubs : Nat → DB → List Folder → Nat → Option DB
  | _, db, [], _ => some db
  | fuel, db, c :: cs, userId =>
    match deleteFolder fuel db c.fid userId with
    | none => none
    | some db2 => deleteSubs fuel db2 cs userId
termination_by fuel _ l _ => (fuel, l.length + 1)
end

/-- DELETE /:id (folders.js lines 265-310): count the folder's direct
subfolders, files and notes; refuse with the count unless `force=true`;
otherwise delete recursively. -/
def deleteFolderRoute (fuel : Nat) (db : DB) (uid folderId : Nat) (force : Bool) :
    Option (DB × Except ApiErr Unit) :=
  match db.folders.find? (fun g => g.fid == folderId && g.owner == uid) with
  | none => some (db, .error .notFound)
  | some folder =>
    let subCnt := (db.folders.filter (fun g =>
      g.parentFolder == some folder.fid && g.owner == uid)).length
    let fileCnt := (db.files.filter (fun x =>
      x.folder == some folder.fid && x.owner == uid)).length
    let noteCnt := (db.notes.filter (fun x =>
      x.folder == some folder.fid && x.owner == uid)).length
    let totalItems := subCnt + fileCnt + noteCnt
    if totalItems > 0 && !force then some (db, .error (.notEmpty totalItems))
    else
      match deleteFolder fuel db folder.fid uid with
      | none => none
      | some db' => some (db', .ok ())

/-- Candidate names tried by the duplicate-folder while-loop:
`` `${originalFolder.name} (Copy ${counter})` ``. -/
def copyName (orig : String) (k : Nat) : String := orig ++ " (Copy " ++ toString k ++ ")"

/-- The while-loop of folders.js lines 348-358, with fuel bounding the
number of iterations. -/
def dupNameLoop (taken : String → Bool) (orig : String) : Nat → String → Nat → String
  | 0, cur, _ => cur
  | fuel + 1, cur, counter =>
    if taken cur then dupNameLoop taken orig fuel (copyName orig counter) (counter + 1)
    else cur

/-- The sibling-name occupancy test used by that loop
(`Folder.findOne({ name, owner, parentFolder })`). -/
def folderNameTaken (db : DB) (uid : Nat) (parent : Option Nat) (nm : String) : Bool :=
  (db.folders.find? (fun g =>
    g.name == nm && g.owner == uid && g.parentFolder == parent)).isSome

/-- POST /:id/duplicate (folders.js lines 333-387): find a free sibling
name, then create a shallow copy next to the original. -/
def duplicateFolder (fuel : Nat) (db : DB) (uid folderId : Nat) : Except ApiErr (DB × Folder) :=
  match db.folders.find? (fun g => g.fid == folderId && g.owner == uid) with
  | none => .error .notFound
  | some orig =>
    let duplicateName :=
      dupNameLoop (folderNameTaken db uid orig.parentFolder) orig.name fuel
        (orig.name ++ " (Copy)") 1
    let newPath := match orig.parentFolder with
      | some _ => String.mk (joinSlash (splitSlash orig.path.data).dropLast) ++ "/" ++ duplicateName
      | none => duplicateName
    let f : Folder :=
      { fid := db.nextId, name := duplicateName, description := orig.description,
        owner := uid, parentFolder := orig.parentFolder, path := newPath,
        isFavorite := false, color := orig.color }
    .ok ({ db with folders := db.folders ++ [f], nextId := db.nextId + 1 }, f)

/-! ## File routes (src/backend/routes/files.js) -/

/-- One element of `req.files` as produced by the multer middleware; its
bytes already sit at `path` in the blob store when the handler runs. -/
structure UploadFile where
  filename : String
  originalname : String
  mimetype : String
  size : Int
  path : String
  deriving Repr, DecidableEq

/-- The File record built per upload (files.js lines 144-156). -/
def mkFileRec (uid : Nat) (folder : Option Nat) (tags description : Option String)
    (nid : Nat) (uf : UploadFile) : FileRec :=
  { fid := nid, name := uf.filename, originalName := uf.originalname,
    type := getFileType uf.mimetype, mimeType := uf.mimetype, size := uf.size,
    path := uf.path, owner := uid, folder := folder,
    tags := if jsStrTruthy tags then
        (splitComma (tags.getD "").data).map (fun cs => jsTrim (String.mk cs))
      else [],
    description := description.getD "" }

/-- POST /upload (files.js lines 107-189): sum the batch size, check the
quota; on failure unlink every temporary file and report; on success
create one record per input and increment `storageUsed` by the total. -/
def uploadFiles (db : DB) (uid : Nat) (reqFiles : List UploadFile) (folder : Option Nat)
    (tags description : Option String) : DB × Except ApiErr (List FileRec) :=
  if reqFiles.isEmpty then (db, .error .noFiles)
  else
    match db.users.find? (fun u => u.uid == uid) with
    | none => (db, .error .notFound)
    | some user =>
      let totalSize := (reqFiles.map UploadFile.size).sum
      if !(hasEnoughStorage user totalSize) then
        ({ db with blobs := reqFiles.foldl (fun bs f => bs.filter (fun p => !(p == f.path))) db.blobs },
         .error .quotaExceeded)
      else
        let recs := reqFiles.enum.map (fun p =>
          mkFileRec uid folder tags description (db.nextId + p.1) p.2)
        ({ db with
            files := db.files ++ recs,
            nextId := db.nextId + reqFiles.length,
            users := db.users.map (fun u =>
              if u.uid == uid then { u with storageUsed := reserveApply u.storageUsed totalSize }
              else u) },
         .ok recs)

/-- DELETE /:id (files.js lines 253-290): unlink the stored bytes, release
the owner's ledger clamped at zero, delete the record. -/
def deleteFile (db : DB) (uid fileId : Nat) : DB × Except ApiErr Unit :=
  match db.files.find? (fun x => x.fid == fileId && x.owner == uid) with
  | none => (db, .error .notFound)
  | some file =>
    ({ db with
        blobs := db.blobs.filter (fun p => !(p == file.path)),
        users := db.users.map (fun u =>
          if u.uid == uid then { u with storageUsed := releaseApply u.storageUsed file.size }
          else u),
        files := db.files.eraseP (fun x => x.fid == file.fid) },
     .ok ())

/-- Node `path.extname`-based duplicate display name (files.js 359-361):
"name.txt" becomes "name (Copy).txt". -/
def dupOriginalName (s : String) : String :=
  let cs := s.data
  let idxs := (List.range cs.length).filter (fun i => cs.getD i ' ' == '.' && !(i == 0))
  match idxs.getLast? with
  | none => s ++ " (Copy)"
  | some i => String.mk (cs.take i) ++ " (Copy)" ++ String.mk (cs.drop i)

/-- POST /:id/duplicate for files (files.js lines 336-405): re-check the
quota for the file's size, copy the bytes to a generated unique name
(passed in as `newFileName`), create the new record, reserve the size. -/
def duplicateFile (db : DB) (uid fileId : Nat) (newFileName : String) :
    DB × Except ApiErr FileRec :=
  match db.files.find? (fun x => x.fid == fileId && x.owner == uid) with
  | none => (db, .error .notFound)
  | some orig =>
    match db.users.find? (fun u => u.uid == uid) with
    | none => (db, .error .notFound)
    | some user =>
      if !(hasEnoughStorage user orig.size) then (db, .error .quotaExceeded)
      else
        let newFilePath := "uploads/" ++ toString uid ++ "/" ++ newFileName
        let r : FileRec :=
          { fid := db.nextId, name := newFileName,
            originalName := dupOriginalName orig.originalName, type := orig.type,
            mimeType := orig.mimeType, size := orig.size, path := newFilePath,
            owner := uid, folder := orig.folder, tags := orig.tags,
            description := orig.description }
        ({ db with
            blobs := db.blobs ++ [newFilePath],
            files := db.files ++ [r],
            users := db.users.map (fun u =>
              if u.uid == uid then { u with storageUsed := reserveApply u.storageUsed orig.size }
              else u),
            nextId := db.nextId + 1 },
         .ok r)

/-! ## Subtree bookkeeping used by the delete claims -/

/-- All ids in the subtree rooted at `folderId`: the folder itself plus
every descendant reached through owner-scoped `parentFolder` links, with
fuel bounding the depth exactly like the recursive delete. -/
def subtreeIds : Nat → List Folder → Nat → Nat → List Nat
  | 0, _, _, _ => []
  | fuel + 1, fs, folderId, userId =>
    folderId ::
      ((fs.filter (fun g => g.parentFolder == some folderId && g.owner == userId)).map
        (fun c => subtreeIds fuel fs c.fid userId)).join

/-- The item count the DELETE route actually reports: direct subfolders
plus direct files plus direct notes (folders.js lines 280-286). -/
def directItemCount (db : DB) (uid folderId : Nat) : Nat :=
  (db.folders.filter (fun g => g.parentFolder == some folderId && g.owner == uid)).length +
  (db.files.filter (fun x => x.folder == some folderId && x.owner == uid)).length +
  (db.notes.filter (fun x => x.folder == some folderId && x.owner == uid)).length

/-- Modelled from the spec wording of claim C6 ("the exact count of direct
plus indirect subfolders, files, and notes"): every proper descendant
subfolder, plus every file and note lying in the folder or in any
descendant.  Used only to compare the spec's count with the code's. -/
def specSubtreeItemCount (fuel : Nat) (db : DB) (folderId userId : Nat) : Nat :=
  let ids := subtreeIds fuel db.folders folderId userId
  (ids.length - 1) +
    (db.files.filter (fun x => x.owner == userId && ids.any (fun d => x.folder == some d))).length +
    (db.notes.filter (fun x => x.owner == userId && ids.any (fun d => x.folder == some d))).length

/-! ## The descendant relation and the contract of the recursive delete -/

/-- Owner-scoped subtree relation over a fixed folder list: `InSub fs uid r d`
holds when the id `d` lies in the subtree rooted at the id `r` (including
`r` itself), reached downward through records in `fs` owned by `uid`. -/
inductive InSub (fs : List Folder) (uid : Nat) (r : Nat) : Nat → Prop where
  | base : InSub fs uid r r
  | step (g : Folder) (p : Nat) : g ∈ fs → g.owner = uid → g.parentFolder = some p →
      InSub fs uid r p → InSub fs uid r g.fid

/-- What one call of the JS helper `deleteFolder(folderId, userId)`
guarantees about its result state: users, blobs and the id counter are
untouched; the collections only shrink; no record with the root id
survives; everything removed lay in the root's subtree; and survival is
closed upward (a surviving folder keeps its parent, a surviving file or
note keeps its folder record). -/
def DeleteSpec (db : DB) (fid uid : Nat) (db' : DB) : Prop :=
  db'.users = db.users ∧ db'.blobs = db.blobs ∧ db'.nextId = db.nextId ∧
  List.Sublist db'.folders db.folders ∧
  List.Sublist db'.files db.files ∧
  List.Sublist db'.notes db.notes ∧
  (∀ g, g ∈ db'.folders → g.fid ≠ fid) ∧
  (∀ g, g ∈ db.folders → g ∉ db'.folders → InSub db.folders uid fid g.fid) ∧
  (∀ x, x ∈ db.files → x ∉ db'.files →
    x.owner = uid ∧ ∃ d, x.folder = some d ∧ InSub db.folders uid fid d) ∧
  (∀ x, x ∈ db.notes → x ∉ db'.notes →
    x.owner = uid ∧ ∃ d, x.folder = some d ∧ InSub db.folders uid fid d) ∧
  (∀ g, g ∈ db'.folders → g.owner = uid → ∀ p, g.parentFolder = some p →
    ∀ h, h ∈ db.folders → h.fid = p → h ∈ db'.folders) ∧
  (∀ x, x ∈ db'.files → x.owner = uid → ∀ d, x.folder = some d →
    ∀ h, h ∈ db.folders → h.fid = d → h.owner = uid → h ∈ db'.folders) ∧
  (∀ x, x ∈ db'.notes → x.owner = uid → ∀ d, x.folder = some d →
    ∀ h, h ∈ db.folders → h.fid = d → h.owner = uid → h ∈ db'.folders)

/-- The corresponding contract for the sibling loop `deleteSubs`. -/
def DeleteSubsSpec (db0 : DB) (uid : Nat) (cs : List Folder) (db' : DB) : Prop :=
  db'.users = db0.users ∧ db'.blobs = db0.blobs ∧ db'.nextId = db0.nextId ∧
  List.Sublist db'.folders db0.folders ∧
  List.Sublist db'.files db0.files ∧
  List.Sublist db'.notes db0.notes ∧
  (∀ c, c ∈ cs → ∀ g, g ∈ db'.folders → g.fid ≠ c.fid) ∧
  (∀ g, g ∈ db0.folders → g ∉ db'.folders →
    ∃ c, c ∈ cs ∧ InSub db0.folders uid c.fid g.fid) ∧
  (∀ x, x ∈ db0.files → x ∉ db'.files →
    x.owner = uid ∧ ∃ d, x.folder = some d ∧ ∃ c, c ∈ cs ∧ InSub db0.folders uid c.fid d) ∧
  (∀ x, x ∈ db0.notes → x ∉ db'.notes →
    x.owner = uid ∧ ∃ d, x.folder = some d ∧ ∃ c, c ∈ cs ∧ InSub db0.folders uid c.fid d) ∧
  (∀ g, g ∈ db'.folders → g.owner = uid → ∀ p, g.parentFolder = some p →
    ∀ h, h ∈ db0.folders → h.fid = p → h ∈ db'.folders) ∧
  (∀ x, x ∈ db'.files → x.owner = uid → ∀ d, x.folder = some d →
    ∀ h, h ∈ db0.folders → h.fid = d → h.owner = uid → h ∈ db'.folders) ∧
  (∀ x, x ∈ db'.notes → x.owner = uid → ∀ d, x.folder = some d →
    ∀ h, h ∈ db0.folders → h.fid = d → h.owner = uid → h ∈ db'.folders)

/-! ## Concrete databases for counterexamples, scenarios and witnesses -/

/-- A user with 1000 bytes of quota, none used. -/
def uEx : User := ⟨7, 0, 1000⟩

/-- Folder "A" containing folder "B" containing one note. -/
def dbNested : DB :=
  ⟨[⟨1, "A", none, 7, none, "A", false, "c"⟩,
    ⟨2, "B", none, 7, some 1, "A/B", false, "c"⟩],
   [], [⟨3, "t", "c", 7, some 2⟩], [uEx], [], 4⟩

/-- Folder "A" containing "B" containing one 5-byte file; 5 bytes used. -/
def dbTree5 : DB :=
  ⟨[⟨1, "A", none, 7, none, "A", false, "c"⟩,
    ⟨2, "B", none, 7, some 1, "A/B", false, "c"⟩],
   [⟨3, "f", "f.txt", "document", "text/plain", 5, "pf", 7, some 2, [], ""⟩],
   [], [⟨7, 5, 1000⟩], ["pf"], 4⟩

/-- A folder named "a*" (a regex metacharacter) with one child "b". -/
def dbStar : DB :=
  ⟨[⟨1, "a*", none, 7, none, "a*", false, "c"⟩,
    ⟨2, "b", none, 7, some 1, "a*/b", false, "c"⟩],
   [], [], [uEx], [], 3⟩

/-- Folder "Docs" with an existing sibling "Docs (Copy)". -/
def dbDocs : DB :=
  ⟨[⟨1, "Docs", none, 7, none, "Docs", false, "c"⟩,
    ⟨2, "Docs (Copy)", none, 7, none, "Docs (Copy)", false, "c"⟩],
   [], [], [uEx], [], 3⟩

/-- The empty store for one user. -/
def dbEmpty : DB := ⟨[], [], [], [uEx], [], 1⟩

/-- Scenario uploads for claim C7: a 600-byte and a 500-byte file. -/
def upA6 : UploadFile := ⟨"a", "a.txt", "text/plain", 600, "pA"⟩

def upB5 : UploadFile := ⟨"b", "b.txt", "text/plain", 500, "pB"⟩

/-- Scenario start state: empty store, limit 1000, multer has written "pA". -/
def dbScen0 : DB := ⟨[], [], [], [⟨7, 0, 1000⟩], ["pA"], 1⟩

/-- After the successful 600-byte upload. -/
def dbScen1 : DB := (uploadFiles dbScen0 7 [upA6] none none none).1

/-- After the rejected 500-byte upload (multer wrote "pB" first). -/
def dbScen2 : DB :=
  (uploadFiles { dbScen1 with blobs := dbScen1.blobs ++ ["pB"] } 7 [upB5] none none none).1

/-- After deleting the 600-byte file. -/
def dbScen3 : DB := (deleteFile dbScen2 7 1).1

end SMS

namespace SMS

/-! ## Well-formedness helpers -/

/-- Mongo's `_id` unique index: no two documents share an id. -/
def NodupIds (fs : List Folder) : Prop := (fs.map Folder.fid).Nodup

/-- A "plain" path segment: no `/` separator and no PCRE metacharacter.
Folder names of this shape travel through the rename machinery verbatim. -/
def PlainSeg (s : String) : Prop := ∀ c ∈ s.data, c ≠ '/' ∧ c ∉ regexMeta

/-- Every folder's `parentFolder` points at an existing folder of the same
owner (phrased with the executable `Option.all` / `List.any`). -/
def ParentOk (fs : List Folder) : Prop :=
  ∀ f ∈ fs, f.parentFolder.all
    (fun pid => fs.any (fun p => p.fid == pid && p.owner == f.owner)) = true

/-- The duplicate-name guard of the create/update routes, read as a state
invariant: same owner, same parent and same name force the same document. -/
def SibUniq (fs : List Folder) : Prop :=
  ∀ f ∈ fs, ∀ g ∈ fs, f.owner = g.owner → f.parentFolder = g.parentFolder →
    f.name = g.name → f = g

/-- All folder names are plain segments. -/
def NamesPlain (fs : List Folder) : Prop := ∀ f ∈ fs, PlainSeg f.name

/-- All folder paths avoid PCRE metacharacters, so that the `$regex` the
rename route builds from a path reads literally. -/
def PathsPlain (fs : List Folder) : Prop :=
  ∀ f ∈ fs, ∀ c ∈ f.path.data, c ∉ regexMeta

/-- The invariant of claim C1: rewalking the `parentFolder` links (with
fuel `n`) reproduces the stored `path` of every folder. -/
def PathOk (n : Nat) (fs : List Folder) : Prop :=
  ∀ f ∈ fs, getFullPath n fs f = some f.path

/-- The per-document rewrite PUT /:id applies in its rename branch
(folders.js lines 225-245), obtained by fusing its two passes: the target
folder receives the recomputed path and the metadata updates, and every
folder matching the `$regex` subtree query gets the JS `replace` applied to
its path. -/
def renameStep (uid : Nat) (folder : Folder) (nm? desc? color : Option String)
    (fav : Option Bool) (r : MiniRegex) (newPath : String) (g : Folder) : Folder :=
  if g.fid == folder.fid then
    applyMeta { folder with path := newPath } nm? desc? color fav
  else if g.owner == uid && regexAccepts r g.path.data then
    { g with path := String.mk (jsReplaceOnce g.path.data folder.path.data newPath.data) }
  else g

theorem nodupIds_eq_of_fid_eq {fs : List Folder} (h : NodupIds fs) {a b : Folder}
    (ha : a ∈ fs) (hb : b ∈ fs) (hfid : a.fid = b.fid) : a = b :=
  List.inj_on_of_nodup_map (f := Folder.fid) h ha hb hfid

/-! ## Claim theorems -/

/-- Claim C9: the stored `type` of an uploaded file is derived from its MIME
type by exactly this classifier: MIME types starting with `image/` map to
`image`; `application/pdf` maps to `pdf`; any other MIME type containing the
substring `document` or `text` maps to `document`; everything else maps to
`other`. -/
theorem C9_mime_type_classifier (m : String) :
    (getFileType m = "image" ↔ startsWithStr "image/" m = true) ∧
    (getFileType m = "pdf" ↔ (startsWithStr "image/" m = false ∧ m = "application/pdf")) ∧
    (getFileType m = "document" ↔ (startsWithStr "image/" m = false ∧ m ≠ "application/pdf" ∧
      (containsSub "document".data m.data = true ∨ containsSub "text".data m.data = true))) ∧
    (getFileType m = "other" ↔ (startsWithStr "image/" m = false ∧ m ≠ "application/pdf" ∧
      containsSub "document".data m.data = false ∧ containsSub "text".data m.data = false)) := by
  unfold getFileType
  split_ifs with h1 h2 h3 <;>
    simp_all [Bool.or_eq_true, beq_iff_eq, Bool.not_eq_true, not_or] <;>
    (intro hA; rcases h3 with h3 | h3
     · rw [hA] at h3; cases h3
     · exact h3)

/-- Claim C5: for a user with non-negative `storageUsed`, a successful
reserve of `n` bytes (the `storageUsed += totalSize` write) followed
immediately by a release of `n` bytes (the
`storageUsed = Math.max(0, storageUsed - n)` write) restores `storageUsed`
exactly; release is total and never produces a negative value. -/
theorem C5_reserve_then_release (used n : Int) (hused : 0 ≤ used) (hn : 0 ≤ n) :
    releaseApply (reserveApply used n) n = used ∧ 0 ≤ releaseApply used n := by
  unfold releaseApply reserveApply
  constructor
  · have h : used + n - n = used := by ring
    rw [h]
    exact max_eq_right hused
  · exact le_max_left 0 _

/-- Witness for C5 at `used = 600`, `n = 250`. -/
theorem C5_reserve_then_release_witness :
    releaseApply (reserveApply 600 250) 250 = 600 ∧ 0 ≤ releaseApply 600 250 :=
  C5_reserve_then_release 600 250 (by decide) (by decide)


/-- Claim C4: the quota reservation check performed before upload and before
file duplication fails with `QuotaExceeded` if and only if
`storageUsed + n > storageLimit`, where `n` is the total incoming byte size;
on failure `storageUsed` is left unchanged (the reservation is never
partially applied). -/
theorem C4_quota_reservation_check (db : DB) (uid : Nat) (reqFiles : List UploadFile)
    (folder : Option Nat) (tags description : Option String) (user : User) (fileId : Nat)
    (newName : String) (orig : FileRec)
    (hu : db.users.find? (fun u => u.uid == uid) = some user)
    (hne : reqFiles ≠ [])
    (hf : db.files.find? (fun x => x.fid == fileId && x.owner == uid) = some orig) :
    ((uploadFiles db uid reqFiles folder tags description).2 = Except.error ApiErr.quotaExceeded
        ↔ user.storageLimit < user.storageUsed + (reqFiles.map UploadFile.size).sum) ∧
    (user.storageLimit < user.storageUsed + (reqFiles.map UploadFile.size).sum →
      (uploadFiles db uid reqFiles folder tags description).1.users = db.users) ∧
    ((duplicateFile db uid fileId newName).2 = Except.error ApiErr.quotaExceeded
        ↔ user.storageLimit < user.storageUsed + orig.size) ∧
    (user.storageLimit < user.storageUsed + orig.size →
      (duplicateFile db uid fileId newName).1 = db) := by
  have hempty : reqFiles.isEmpty = false := by
    cases reqFiles with
    | nil => exact absurd rfl hne
    | cons a l => rfl
  by_cases hq : user.storageUsed + (reqFiles.map UploadFile.size).sum ≤ user.storageLimit <;>
    by_cases hq2 : user.storageUsed + orig.size ≤ user.storageLimit <;>
      simp [uploadFiles, duplicateFile, hempty, hu, hf, hasEnoughStorage, hq, hq2] <;>
      omega

/-- Witness for C4: one user at 600 of 1000 bytes, one 500-byte upload
candidate and one 600-byte stored file. -/
theorem C4_quota_reservation_check_witness :
    let u : User := ⟨7, 600, 1000⟩
    let f : FileRec := ⟨1, "a", "a.txt", "document", "text/plain", 600, "pA", 7, none, [], ""⟩
    let db : DB := ⟨[], [f], [], [u], ["pA"], 2⟩
    let up : UploadFile := ⟨"b", "b.txt", "text/plain", 500, "pB"⟩
    ((uploadFiles db 7 [up] none none none).2 = Except.error ApiErr.quotaExceeded
        ↔ u.storageLimit < u.storageUsed + ([up].map UploadFile.size).sum) ∧
    (u.storageLimit < u.storageUsed + ([up].map UploadFile.size).sum →
      (uploadFiles db 7 [up] none none none).1.users = db.users) ∧
    ((duplicateFile db 7 1 "c").2 = Except.error ApiErr.quotaExceeded
        ↔ u.storageLimit < u.storageUsed + f.size) ∧
    (u.storageLimit < u.storageUsed + f.size →
      (duplicateFile db 7 1 "c").1 = db) :=
  C4_quota_reservation_check _ 7 [_] none none none _ 1 "c" _ (by rfl) (by simp) (by rfl)


/-! ### applyMeta frame lemmas -/

theorem applyMeta_path (f : Folder) (n d c : Option String) (fav : Option Bool) :
    (applyMeta f n d c fav).path = f.path := by
  simp only [applyMeta]
  cases fav <;> cases d <;> split_ifs <;> rfl

theorem applyMeta_parentFolder (f : Folder) (n d c : Option String) (fav : Option Bool) :
    (applyMeta f n d c fav).parentFolder = f.parentFolder := by
  simp only [applyMeta]
  cases fav <;> cases d <;> split_ifs <;> rfl

theorem applyMeta_fid (f : Folder) (n d c : Option String) (fav : Option Bool) :
    (applyMeta f n d c fav).fid = f.fid := by
  simp only [applyMeta]
  cases fav <;> cases d <;> split_ifs <;> rfl

theorem applyMeta_owner (f : Folder) (n d c : Option String) (fav : Option Bool) :
    (applyMeta f n d c fav).owner = f.owner := by
  simp only [applyMeta]
  cases fav <;> cases d <;> split_ifs <;> rfl

theorem applyMeta_name_of_same (f : Folder) (n d c : Option String) (fav : Option Bool)
    (hn : n = none ∨ n = some f.name) : (applyMeta f n d c fav).name = f.name := by
  simp only [applyMeta]
  rcases hn with hn | hn <;> subst hn <;>
    cases fav <;> cases d <;> split_ifs <;> simp_all [jsStrTruthy]

/-- Claim C10: a folder update that does not change the folder name (no
name supplied, or the supplied name equal to the current one) modifies only
the target folder's description, color and isFavorite fields: the target
folder's path and parentFolder, the path (and every other field) of every
other folder, and the remaining collections are all left unchanged. -/
theorem C10_metadata_only_update (db : DB) (uid fid : Nat)
    (name description color : Option String) (fav : Option Bool) (target : Folder) (db' : DB)
    (hnodup : NodupIds db.folders)
    (ht : db.folders.find? (fun g => g.fid == fid && g.owner == uid) = some target)
    (hname : name = none ∨ name.map jsTrim = some target.name)
    (h : updateFolder db uid fid name description color fav = Except.ok db') :
    db'.files = db.files ∧ db'.notes = db.notes ∧ db'.users = db.users ∧
    db'.blobs = db.blobs ∧ db'.nextId = db.nextId ∧
    db'.folders.length = db.folders.length ∧
    (∀ i (hi : i < db.folders.length) (hi2 : i < db'.folders.length),
      (db'.folders.get ⟨i, hi2⟩).path = (db.folders.get ⟨i, hi⟩).path ∧
      (db'.folders.get ⟨i, hi2⟩).parentFolder = (db.folders.get ⟨i, hi⟩).parentFolder ∧
      (db'.folders.get ⟨i, hi2⟩).name = (db.folders.get ⟨i, hi⟩).name ∧
      ((db.folders.get ⟨i, hi⟩).fid ≠ fid → db'.folders.get ⟨i, hi2⟩ = db.folders.get ⟨i, hi⟩)) := by
  have htmem : target ∈ db.folders := List.mem_of_find?_eq_some ht
  have htprop := List.find?_some ht
  have htfid : target.fid = fid := by
    simp only [Bool.and_eq_true, beq_iff_eq] at htprop
    exact htprop.1
  have hdoR : (match name.map jsTrim with
      | some nm => !(nm == "") && !(nm == target.name)
      | none => false) = false := by
    rcases hname with hn | hn
    · subst hn; rfl
    · rw [hn]
      simp
  unfold updateFolder at h
  rw [ht] at h
  split at h
  · exact absurd h (by simp)
  · dsimp only [] at h
    rw [hdoR] at h
    simp only [Bool.false_eq_true, if_false] at h
    have hdb : db' = { db with folders := db.folders.map (fun g =>
        if g.fid == target.fid then
          applyMeta target (name.map jsTrim) (description.map jsTrim) color fav
        else g) } := by
      cases h
      rfl
    subst hdb
    refine ⟨rfl, rfl, rfl, rfl, rfl, by simp, ?_⟩
    intro i hi hi2
    have hget : (db.folders.map (fun g =>
        if g.fid == target.fid then
          applyMeta target (Option.map jsTrim name) (Option.map jsTrim description) color fav
        else g)).get ⟨i, hi2⟩
        = if (db.folders.get ⟨i, hi⟩).fid == target.fid then
            applyMeta target (Option.map jsTrim name) (Option.map jsTrim description) color fav
          else db.folders.get ⟨i, hi⟩ := by
      simp
    rw [hget]
    by_cases hc : (db.folders.get ⟨i, hi⟩).fid = target.fid
    · have hgt : db.folders.get ⟨i, hi⟩ = target :=
        nodupIds_eq_of_fid_eq hnodup (List.get_mem _ _ _) htmem hc
      have hnm : Option.map jsTrim name = none ∨
          Option.map jsTrim name = some target.name := by
        rcases hname with hn | hn
        · subst hn; exact Or.inl rfl
        · exact Or.inr hn
      refine ⟨?_, ?_, ?_, ?_⟩ <;> simp only [hc, beq_self_eq_true, if_true]
      · rw [applyMeta_path, hgt]
      · rw [applyMeta_parentFolder, hgt]
      · rw [applyMeta_name_of_same _ _ _ _ _ hnm, hgt]
      · intro hne
        exact absurd htfid hne
    · have hcb : ((db.folders.get ⟨i, hi⟩).fid == target.fid) = false := by
        simp only [beq_eq_false_iff_ne, ne_eq]
        exact hc
      rw [hcb]
      simp

/-- Witness for C10: update only the color of a root folder. -/
theorem C10_metadata_only_update_witness :
    let t : Folder := ⟨1, "A", none, 7, none, "A", false, "c"⟩
    let db : DB := ⟨[t], [], [], [⟨7, 0, 1000⟩], [], 2⟩
    let db2 : DB := ⟨[⟨1, "A", none, 7, none, "A", false, "red"⟩], [], [], [⟨7, 0, 1000⟩], [], 2⟩
    db2.files = db.files ∧ db2.notes = db.notes ∧ db2.users = db.users ∧
    db2.blobs = db.blobs ∧ db2.nextId = db.nextId ∧
    db2.folders.length = db.folders.length ∧
    (∀ i (hi : i < db.folders.length) (hi2 : i < db2.folders.length),
      (db2.folders.get ⟨i, hi2⟩).path = (db.folders.get ⟨i, hi⟩).path ∧
      (db2.folders.get ⟨i, hi2⟩).parentFolder = (db.folders.get ⟨i, hi⟩).parentFolder ∧
      (db2.folders.get ⟨i, hi2⟩).name = (db.folders.get ⟨i, hi⟩).name ∧
      ((db.folders.get ⟨i, hi⟩).fid ≠ 1 → db2.folders.get ⟨i, hi2⟩ = db.folders.get ⟨i, hi⟩)) :=
  C10_metadata_only_update _ 7 1 none none (some "red") none _ _
    (by simp [NodupIds]) (by rfl) (Or.inl rfl) (by rfl)

/-! ### Direct vs. subtree item counts (claim C6) -/

theorem specSubtree_zero_of_direct_zero (fuel : Nat) (db : DB) (uid folderId : Nat)
    (h : directItemCount db uid folderId = 0) :
    specSubtreeItemCount (fuel + 1) db folderId uid = 0 := by
  unfold directItemCount at h
  have hA : db.folders.filter (fun g => g.parentFolder == some folderId && g.owner == uid) = [] :=
    List.length_eq_zero.mp (by omega)
  have hB : db.files.filter (fun x => x.folder == some folderId && x.owner == uid) = [] :=
    List.length_eq_zero.mp (by omega)
  have hC : db.notes.filter (fun x => x.folder == some folderId && x.owner == uid) = [] :=
    List.length_eq_zero.mp (by omega)
  have hids : subtreeIds (fuel + 1) db.folders folderId uid = [folderId] := by
    unfold subtreeIds
    rw [hA]
    rfl
  have hBF : db.files.filter (fun x => x.owner == uid &&
      (([folderId] : List Nat).any (fun d => x.folder == some d))) = [] := by
    rw [← hB]
    apply List.filter_congr
    intro x hx
    cases hxo : (x.owner == uid) <;> cases hxf : (x.folder == some folderId) <;>
      simp [hxo, hxf]
  have hCF : db.notes.filter (fun x => x.owner == uid &&
      (([folderId] : List Nat).any (fun d => x.folder == some d))) = [] := by
    rw [← hC]
    apply List.filter_congr
    intro x hx
    cases hxo : (x.owner == uid) <;> cases hxf : (x.folder == some folderId) <;>
      simp [hxo, hxf]
  simp only [specSubtreeItemCount, hids, hBF, hCF]
  rfl

/-- Claim C6 (amended): for every folder whose subtree contains at least one
item, Delete without force fails with NotEmpty, reports the count of
*direct* subfolders, files and notes (the code does not add indirect
descendants to the count), and deletes nothing: the returned database is
the input unchanged. -/
theorem C6_nonempty_delete_refused (fuelR fuel : Nat) (db : DB) (uid folderId : Nat)
    (target : Folder)
    (ht : db.folders.find? (fun g => g.fid == folderId && g.owner == uid) = some target)
    (hne : 0 < specSubtreeItemCount (fuel + 1) db folderId uid) :
    deleteFolderRoute fuelR db uid folderId false
      = some (db, Except.error (ApiErr.notEmpty (directItemCount db uid folderId))) ∧
    0 < directItemCount db uid folderId := by
  have htprop := List.find?_some ht
  have htfid : target.fid = folderId := by
    simp only [Bool.and_eq_true, beq_iff_eq] at htprop
    exact htprop.1
  have hd : 0 < directItemCount db uid folderId := by
    by_contra hz
    push_neg at hz
    have h0 := specSubtree_zero_of_direct_zero fuel db uid folderId (Nat.le_zero.mp hz)
    omega
  refine ⟨?_, hd⟩
  unfold deleteFolderRoute
  rw [ht]
  dsimp only []
  rw [htfid]
  have hcond : ((directItemCount db uid folderId > 0 && !false) = true) := by
    simp only [Bool.not_false, Bool.and_true, decide_eq_true_eq]
    exact hd
  have hfold : (List.filter (fun g => g.parentFolder == some folderId && g.owner == uid)
        db.folders).length +
      (List.filter (fun x => x.folder == some folderId && x.owner == uid) db.files).length +
      (List.filter (fun x => x.folder == some folderId && x.owner == uid) db.notes).length
      = directItemCount db uid folderId := rfl
  rw [hfold, if_pos hcond]

/-- Counterexample to claim C6 as stated: in `dbNested` ("A" ⊃ "B" ⊃ one
note) the subtree of "A" holds 2 items, but the route reports
`notEmpty 1`, counting only the direct child. -/
theorem C6_counterexample :
    deleteFolderRoute 10 dbNested 7 1 false
      = some (dbNested, Except.error (ApiErr.notEmpty 1)) ∧
    specSubtreeItemCount 10 dbNested 1 7 = 2 ∧ (1 : Nat) ≠ 2 :=
  ⟨rfl, rfl, by decide⟩

/-- Witness for the amended C6 at `dbNested`. -/
theorem C6_nonempty_delete_refused_witness :
    deleteFolderRoute 10 dbNested 7 1 false
      = some (dbNested, Except.error (ApiErr.notEmpty (directItemCount dbNested 7 1))) ∧
    0 < directItemCount dbNested 7 1 :=
  C6_nonempty_delete_refused 10 9 dbNested 7 1 _ (by rfl) (by decide)


/-! ### The duplicate-name while-loop (claim C8) -/

theorem dupNameLoop_reaches (taken : String → Bool) (orig : String) (N : Nat)
    (hbelow : ∀ k, 1 ≤ k → k < N → taken (copyName orig k) = true)
    (hfree : taken (copyName orig N) = false) :
    ∀ fuel c, 1 ≤ c → c ≤ N → N - c < fuel →
      dupNameLoop taken orig fuel (copyName orig c) (c + 1) = copyName orig N := by
  intro fuel
  induction fuel with
  | zero =>
    intro c h1 h2 h3
    omega
  | succ n ih =>
    intro c h1 h2 h3
    by_cases hc : c = N
    · subst hc
      simp [dupNameLoop, hfree]
    · have hcN : c < N := lt_of_le_of_ne h2 hc
      have htk := hbelow c h1 hcN
      simp only [dupNameLoop, htk, if_true]
      exact ih (c + 1) (by omega) (by omega) (by omega)

theorem dupNameLoop_least (taken : String → Bool) (orig : String) (N fuel : Nat)
    (h1 : 1 ≤ N) (hN : N < fuel)
    (hbase : taken (orig ++ " (Copy)") = true)
    (hbelow : ∀ k, 1 ≤ k → k < N → taken (copyName orig k) = true)
    (hfree : taken (copyName orig N) = false) :
    dupNameLoop taken orig fuel (orig ++ " (Copy)") 1 = copyName orig N := by
  cases fuel with
  | zero => omega
  | succ n =>
    simp only [dupNameLoop, hbase, if_true]
    exact dupNameLoop_reaches taken orig N hbelow hfree n 1 le_rfl h1 (by omega)

theorem dupNameLoop_base_free (taken : String → Bool) (orig : String) (fuel : Nat)
    (hbase : taken (orig ++ " (Copy)") = false) :
    dupNameLoop taken orig fuel (orig ++ " (Copy)") 1 = orig ++ " (Copy)" := by
  cases fuel with
  | zero => rfl
  | succ n => simp [dupNameLoop, hbase]

/-- Claim C8 (amended): `Duplicate(folderId)` creates a sibling folder named
`"<name> (Copy)"` when that name is free among siblings of the same owner
and parent, and otherwise `"<name> (Copy N)"` with the smallest `N ≥ 1`
making the name unique; in particular, duplicating a folder named "Docs"
that already has a sibling "Docs (Copy)" (and no other "Docs (Copy …)"
siblings) yields a new folder named "Docs (Copy 1)" — not "Docs (Copy 2)"
as the original claim stated. -/
theorem C8_duplicate_folder_naming (fuel : Nat) (db : DB) (uid folderId : Nat) (orig : Folder)
    (N : Nat)
    (ho : db.folders.find? (fun g => g.fid == folderId && g.owner == uid) = some orig)
    (h1 : 1 ≤ N) (hN : N < fuel) :
    (folderNameTaken db uid orig.parentFolder (orig.name ++ " (Copy)") = false →
      ∃ p, duplicateFolder fuel db uid folderId = Except.ok p ∧
        p.2.name = orig.name ++ " (Copy)") ∧
    (folderNameTaken db uid orig.parentFolder (orig.name ++ " (Copy)") = true →
      (∀ k, 1 ≤ k → k < N →
        folderNameTaken db uid orig.parentFolder (copyName orig.name k) = true) →
      folderNameTaken db uid orig.parentFolder (copyName orig.name N) = false →
      ∃ p, duplicateFolder fuel db uid folderId = Except.ok p ∧
        p.2.name = copyName orig.name N) := by
  constructor
  · intro hbase
    unfold duplicateFolder
    rw [ho]
    refine ⟨_, rfl, ?_⟩
    dsimp only []
    rw [dupNameLoop_base_free _ _ _ hbase]
  · intro hbase hbelow hfree
    unfold duplicateFolder
    rw [ho]
    refine ⟨_, rfl, ?_⟩
    dsimp only []
    rw [dupNameLoop_least _ _ N fuel h1 hN hbase hbelow hfree]

/-- Counterexample to claim C8 as stated: duplicating "Docs" next to an
existing sibling "Docs (Copy)" yields "Docs (Copy 1)", not the claimed
"Docs (Copy 2)". -/
theorem C8_counterexample :
    (duplicateFolder 10 dbDocs 7 1).toOption.map (fun p => p.2.name)
      = some "Docs (Copy 1)" ∧ "Docs (Copy 1)" ≠ "Docs (Copy 2)" :=
  ⟨rfl, by decide⟩

/-- Witness for the amended C8 on `dbDocs` with `N = 1`. -/
theorem C8_duplicate_folder_naming_witness :
    (folderNameTaken dbDocs 7 none ("Docs" ++ " (Copy)") = false →
      ∃ p, duplicateFolder 10 dbDocs 7 1 = Except.ok p ∧
        p.2.name = "Docs" ++ " (Copy)") ∧
    (folderNameTaken dbDocs 7 none ("Docs" ++ " (Copy)") = true →
      (∀ k, 1 ≤ k → k < 1 → folderNameTaken dbDocs 7 none (copyName "Docs" k) = true) →
      folderNameTaken dbDocs 7 none (copyName "Docs" 1) = false →
      ∃ p, duplicateFolder 10 dbDocs 7 1 = Except.ok p ∧
        p.2.name = copyName "Docs" 1) :=
  C8_duplicate_folder_naming 10 dbDocs 7 1 ⟨1, "Docs", none, 7, none, "Docs", false, "c"⟩ 1
    (by rfl) (by decide) (by decide)


/-! ### Upload rejection cleanup (claim C7) -/

theorem foldl_unlink_eq_filter (l : List UploadFile) (bs : List String) :
    l.foldl (fun b f => b.filter (fun p => !(p == f.path))) bs
      = bs.filter (fun p => !(l.any (fun f => f.path == p))) := by
  induction l generalizing bs with
  | nil => simp
  | cons a t ih =>
    simp only [List.foldl_cons, List.any_cons]
    rw [ih, List.filter_filter]
    apply List.filter_congr
    intro x hx
    have hsymm : (a.path == x) = (x == a.path) := by
      cases hxy : (x == a.path) <;> cases hyx : (a.path == x) <;>
        simp_all [beq_iff_eq] <;> simp_all [eq_comm]
    rw [hsymm, Bool.not_or, Bool.and_comm]

/-- Claim C7: when the total byte size of an upload batch fails the quota
check, no File records are created, every temporary stored file of the
batch is unlinked from the blob store (and nothing else changes), and the
owner's `storageUsed` is untouched.  The final conjuncts replay the spec
scenario: with limit 1000, a 600-byte upload succeeds (`storageUsed` 600),
a following 500-byte upload fails with QuotaExceeded leaving 600 and
removing only its own temporary file, and deleting the 600-byte file
returns `storageUsed` to 0. -/
theorem C7_upload_rejection_cleanup (db : DB) (uid : Nat) (reqFiles : List UploadFile)
    (folder : Option Nat) (tags description : Option String) (user : User)
    (hu : db.users.find? (fun u => u.uid == uid) = some user)
    (hne : reqFiles ≠ [])
    (hq : user.storageLimit < user.storageUsed + (reqFiles.map UploadFile.size).sum) :
    uploadFiles db uid reqFiles folder tags description
      = ({ db with
            blobs := db.blobs.filter (fun p => !(reqFiles.any (fun f => f.path == p))) },
         Except.error ApiErr.quotaExceeded) ∧
    (uploadFiles dbScen0 7 [upA6] none none none).2.isOk = true ∧
    dbScen1.users.map User.storageUsed = [600] ∧
    dbScen1.files.length = 1 ∧
    (uploadFiles { dbScen1 with blobs := dbScen1.blobs ++ ["pB"] } 7 [upB5]
        none none none).2 = Except.error ApiErr.quotaExceeded ∧
    dbScen2.users.map User.storageUsed = [600] ∧
    dbScen2.files.length = 1 ∧
    dbScen2.blobs = ["pA"] ∧
    dbScen3.users.map User.storageUsed = [0] ∧
    dbScen3.files = [] ∧
    dbScen3.blobs = [] := by
  have hempty : reqFiles.isEmpty = false := by
    cases reqFiles with
    | nil => exact absurd rfl hne
    | cons a l => rfl
  refine ⟨?_, rfl, rfl, rfl, rfl, rfl, rfl, rfl, rfl, rfl, rfl⟩
  have hqb : hasEnoughStorage user ((reqFiles.map UploadFile.size).sum) = false := by
    simp only [hasEnoughStorage, decide_eq_false_iff_not, not_le]
    omega
  simp only [uploadFiles, hempty, hu, hqb, Bool.false_eq_true, if_false,
    Bool.not_false, if_true, foldl_unlink_eq_filter]


/-- Witness for C7: a single 500-byte upload against a 1000-byte limit with
600 bytes already used. -/
theorem C7_upload_rejection_cleanup_witness :
    let dbw : DB := ⟨[], [], [], [⟨7, 600, 1000⟩], ["pB"], 1⟩
    (uploadFiles dbw 7 [upB5] none none none
      = ({ dbw with
            blobs := dbw.blobs.filter
              (fun p => !(([upB5] : List UploadFile).any (fun f => f.path == p))) },
         Except.error ApiErr.quotaExceeded)) ∧
    (uploadFiles dbScen0 7 [upA6] none none none).2.isOk = true ∧
    dbScen1.users.map User.storageUsed = [600] ∧
    dbScen1.files.length = 1 ∧
    (uploadFiles { dbScen1 with blobs := dbScen1.blobs ++ ["pB"] } 7 [upB5]
        none none none).2 = Except.error ApiErr.quotaExceeded ∧
    dbScen2.users.map User.storageUsed = [600] ∧
    dbScen2.files.length = 1 ∧
    dbScen2.blobs = ["pA"] ∧
    dbScen3.users.map User.storageUsed = [0] ∧
    dbScen3.files = [] ∧
    dbScen3.blobs = [] :=
  C7_upload_rejection_cleanup _ 7 [upB5] none none none ⟨7, 600, 1000⟩ rfl
    (by simp) (by decide)


/-! ### Basic facts about `InSub` and `eraseP` (claim C2) -/

theorem insub_mono {fs fs2 : List Folder} (hsub : ∀ g, g ∈ fs2 → g ∈ fs) {uid r d : Nat}
    (h : InSub fs2 uid r d) : InSub fs uid r d := by
  induction h with
  | base => exact InSub.base
  | step g p hg ho hp _ ih => exact InSub.step g p (hsub g hg) ho hp ih

theorem insub_trans {fs : List Folder} {uid r c d : Nat}
    (h1 : InSub fs uid r c) (h2 : InSub fs uid c d) : InSub fs uid r d := by
  induction h2 with
  | base => exact h1
  | step g p hg ho hp _ ih => exact InSub.step g p hg ho hp ih

theorem insub_root_or_record {fs : List Folder} {uid r d : Nat} (h : InSub fs uid r d) :
    d = r ∨ ∃ g, g ∈ fs ∧ g.fid = d ∧ g.owner = uid := by
  cases h with
  | base => exact Or.inl rfl
  | step g p hg ho hp hs => exact Or.inr ⟨g, hg, rfl, ho⟩

theorem nodupIds_sublist {l1 l2 : List Folder} (hs : List.Sublist l1 l2)
    (hn : NodupIds l2) : NodupIds l1 :=
  List.Nodup.sublist (List.Sublist.map Folder.fid hs) hn

theorem mem_eraseP_of_not {α : Type} (p : α → Bool) {l : List α} {x : α}
    (hx : x ∈ l) (hpx : p x = false) : x ∈ l.eraseP p := by
  induction l with
  | nil => cases hx
  | cons a t ih =>
    rw [List.eraseP_cons]
    cases hpa : p a with
    | true =>
      simp only [hpa, cond_true]
      rcases List.mem_cons.mp hx with hx1 | hx1
      · subst hx1
        rw [hpx] at hpa
        cases hpa
      · exact hx1
    | false =>
      simp only [hpa, cond_false]
      rcases List.mem_cons.mp hx with hx1 | hx1
      · subst hx1
        exact List.mem_cons_self _ _
      · exact List.mem_cons_of_mem _ (ih hx1)

theorem eraseP_no_fid {l : List Folder} (hn : NodupIds l) {fid : Nat} {g : Folder}
    (hg : g ∈ l.eraseP (fun x => x.fid == fid)) (hfid : g.fid = fid) : False := by
  induction l with
  | nil => cases hg
  | cons a t ih =>
    have hn2 : NodupIds t := by
      have := hn
      unfold NodupIds at this ⊢
      simp only [List.map_cons, List.nodup_cons] at this
      exact this.2
    have hna : a.fid ∉ t.map Folder.fid := by
      have := hn
      unfold NodupIds at this
      simp only [List.map_cons, List.nodup_cons] at this
      exact this.1
    rw [List.eraseP_cons] at hg
    cases hpa : (a.fid == fid) with
    | true =>
      simp only [hpa, cond_true] at hg
      have haf : a.fid = fid := beq_iff_eq.mp hpa
      exact hna (by
        rw [haf, ← hfid]
        exact List.mem_map_of_mem Folder.fid hg)
    | false =>
      simp only [hpa, cond_false] at hg
      rcases List.mem_cons.mp hg with hg1 | hg1
      · subst hg1
        rw [hfid] at hpa
        simp at hpa
      · exact ih hn2 hg1


/-! ### The recursive delete meets its contract -/

theorem deleteFolder_spec : ∀ fuel (db : DB) (fid uid : Nat) (db2 : DB),
    NodupIds db.folders → deleteFolder fuel db fid uid = some db2 →
    DeleteSpec db fid uid db2 := by
  intro fuel
  induction fuel with
  | zero =>
    intro db fid uid db2 hn h
    simp [deleteFolder] at h
  | succ n ih =>
    have subs : ∀ (cs : List Folder) (db0 : DB) (uid : Nat) (db2 : DB),
        NodupIds db0.folders → deleteSubs n db0 cs uid = some db2 →
        DeleteSubsSpec db0 uid cs db2 := by
      intro cs
      induction cs with
      | nil =>
        intro db0 uid db2 hn0 h
        simp only [deleteSubs] at h
        obtain rfl : db0 = db2 := Option.some.inj h
        refine ⟨rfl, rfl, rfl, List.Sublist.refl _, List.Sublist.refl _, List.Sublist.refl _,
          ?_, ?_, ?_, ?_, ?_, ?_, ?_⟩
        · intro c hc
          exact absurd hc (List.not_mem_nil c)
        · intro g hg hgn
          exact absurd hg hgn
        · intro x hx hxn
          exact absurd hx hxn
        · intro x hx hxn
          exact absurd hx hxn
        · intro g hg _ p _ h hh _
          exact hh
        · intro x hx _ d _ h hh _ _
          exact hh
        · intro x hx _ d _ h hh _ _
          exact hh
      | cons c cs ihcs =>
        intro db0 uid db2 hn0 h
        simp only [deleteSubs] at h
        cases hdf : deleteFolder n db0 c.fid uid with
        | none =>
          rw [hdf] at h
          cases h
        | some db1 =>
          rw [hdf] at h
          obtain ⟨u1, b1, n1, sf1, sfi1, sn1, pR1, pB1, pBf1, pBn1, pE1, pH1, pN1⟩ :=
            ih db0 c.fid uid db1 hn0 hdf
          have hn1 : NodupIds db1.folders := nodupIds_sublist sf1 hn0
          obtain ⟨u2, b2, n2, sf2, sfi2, sn2, pR2, pB2, pBf2, pBn2, pE2, pH2, pN2⟩ :=
            ihcs db1 uid db2 hn1 h
          refine ⟨u2.trans u1, b2.trans b1, n2.trans n1,
            sf2.trans sf1, sfi2.trans sfi1, sn2.trans sn1, ?_, ?_, ?_, ?_, ?_, ?_, ?_⟩
          · intro c2 hc2 g hg
            rcases List.mem_cons.mp hc2 with hc3 | hc3
            · subst hc3
              exact pR1 g (sf2.subset hg)
            · exact pR2 c2 hc3 g hg
          · intro g hg hgn
            by_cases hg1 : g ∈ db1.folders
            · obtain ⟨c2, hc2, hins⟩ := pB2 g hg1 hgn
              exact ⟨c2, List.mem_cons_of_mem _ hc2,
                insub_mono (fun y hy => sf1.subset hy) hins⟩
            · exact ⟨c, List.mem_cons_self _ _, pB1 g hg hg1⟩
          · intro x hx hxn
            by_cases hx1 : x ∈ db1.files
            · obtain ⟨ho, d, hd, c2, hc2, hins⟩ := pBf2 x hx1 hxn
              exact ⟨ho, d, hd, c2, List.mem_cons_of_mem _ hc2,
                insub_mono (fun y hy => sf1.subset hy) hins⟩
            · obtain ⟨ho, d, hd, hins⟩ := pBf1 x hx hx1
              exact ⟨ho, d, hd, c, List.mem_cons_self _ _, hins⟩
          · intro x hx hxn
            by_cases hx1 : x ∈ db1.notes
            · obtain ⟨ho, d, hd, c2, hc2, hins⟩ := pBn2 x hx1 hxn
              exact ⟨ho, d, hd, c2, List.mem_cons_of_mem _ hc2,
                insub_mono (fun y hy => sf1.subset hy) hins⟩
            · obtain ⟨ho, d, hd, hins⟩ := pBn1 x hx hx1
              exact ⟨ho, d, hd, c, List.mem_cons_self _ _, hins⟩
          · intro g hg ho p hp h2 hh hfid
            exact pE2 g hg ho p hp h2 (pE1 g (sf2.subset hg) ho p hp h2 hh hfid) hfid
          · intro x hx ho d hd h2 hh hfid hho
            exact pH2 x hx ho d hd h2 (pH1 x (sfi2.subset hx) ho d hd h2 hh hfid hho) hfid hho
          · intro x hx ho d hd h2 hh hfid hho
            exact pN2 x hx ho d hd h2 (pN1 x (sn2.subset hx) ho d hd h2 hh hfid hho) hfid hho
    intro db fid uid db2 hn h
    simp only [deleteFolder] at h
    cases hsub : deleteSubs n db
        (db.folders.filter (fun g => g.parentFolder == some fid && g.owner == uid)) uid with
    | none =>
      rw [hsub] at h
      cases h
    | some db1 =>
      rw [hsub] at h
      obtain rfl : ({ db1 with
          files := db1.files.filter (fun x => !(x.folder == some fid && x.owner == uid)),
          notes := db1.notes.filter (fun x => !(x.folder == some fid && x.owner == uid)),
          folders := db1.folders.eraseP (fun g => g.fid == fid) } : DB) = db2 :=
        Option.some.inj h
      obtain ⟨u1, b1, n1, sf1, sfi1, sn1, pR, pB, pBf, pBn, pE, pH, pN⟩ :=
        subs _ db uid db1 hn hsub
      have hn1 : NodupIds db1.folders := nodupIds_sublist sf1 hn
      have hchild : ∀ c, c ∈ db.folders.filter
          (fun g => g.parentFolder == some fid && g.owner == uid) →
          c.parentFolder = some fid ∧ c.owner = uid ∧ c ∈ db.folders := by
        intro c hc
        have hm := List.mem_filter.mp hc
        have := hm.2
        simp only [Bool.and_eq_true, beq_iff_eq] at this
        exact ⟨this.1, this.2, hm.1⟩
      refine ⟨u1, b1, n1, (List.eraseP_sublist _).trans sf1,
        (List.filter_sublist _).trans sfi1, (List.filter_sublist _).trans sn1,
        ?_, ?_, ?_, ?_, ?_, ?_, ?_⟩
      · intro g hg hfid
        exact eraseP_no_fid hn1 hg hfid
      · intro g hg hgn
        by_cases hg1 : g ∈ db1.folders
        · by_cases hpg : g.fid = fid
          · rw [hpg]
            exact InSub.base
          · have : g ∈ db1.folders.eraseP (fun x => x.fid == fid) :=
              mem_eraseP_of_not _ hg1 (by
                simp only [beq_eq_false_iff_ne, ne_eq]
                exact hpg)
            exact absurd this hgn
        · obtain ⟨c, hc, hins⟩ := pB g hg hg1
          obtain ⟨hcp, hco, hcm⟩ := hchild c hc
          exact insub_trans (InSub.step c fid hcm hco hcp InSub.base) hins
      · intro x hx hxn
        by_cases hx1 : x ∈ db1.files
        · by_cases hq : (x.folder == some fid && x.owner == uid) = true
          · simp only [Bool.and_eq_true, beq_iff_eq] at hq
            exact ⟨hq.2, fid, hq.1, InSub.base⟩
          · have : x ∈ db1.files.filter (fun y => !(y.folder == some fid && y.owner == uid)) :=
              List.mem_filter.mpr ⟨hx1, by
                cases hb : (x.folder == some fid && x.owner == uid)
                · rfl
                · exact absurd hb hq⟩
            exact absurd this hxn
        · obtain ⟨ho, d, hd, c, hc, hins⟩ := pBf x hx hx1
          obtain ⟨hcp, hco, hcm⟩ := hchild c hc
          exact ⟨ho, d, hd, insub_trans (InSub.step c fid hcm hco hcp InSub.base) hins⟩
      · intro x hx hxn
        by_cases hx1 : x ∈ db1.notes
        · by_cases hq : (x.folder == some fid && x.owner == uid) = true
          · simp only [Bool.and_eq_true, beq_iff_eq] at hq
            exact ⟨hq.2, fid, hq.1, InSub.base⟩
          · have : x ∈ db1.notes.filter (fun y => !(y.folder == some fid && y.owner == uid)) :=
              List.mem_filter.mpr ⟨hx1, by
                cases hb : (x.folder == some fid && x.owner == uid)
                · rfl
                · exact absurd hb hq⟩
            exact absurd this hxn
        · obtain ⟨ho, d, hd, c, hc, hins⟩ := pBn x hx hx1
          obtain ⟨hcp, hco, hcm⟩ := hchild c hc
          exact ⟨ho, d, hd, insub_trans (InSub.step c fid hcm hco hcp InSub.base) hins⟩
      · intro g hg ho p hp h2 hh hfid
        have hg1 : g ∈ db1.folders := (List.eraseP_sublist _).subset hg
        have hh1 : h2 ∈ db1.folders := pE g hg1 ho p hp h2 hh hfid
        by_cases hpf : p = fid
        · subst hpf
          have hgc : g ∈ db.folders.filter
              (fun y => y.parentFolder == some p && y.owner == uid) :=
            List.mem_filter.mpr ⟨sf1.subset hg1, by
              simp only [Bool.and_eq_true, beq_iff_eq]
              exact ⟨hp, ho⟩⟩
          exact absurd rfl (pR g hgc g hg1)
        · exact mem_eraseP_of_not _ hh1 (by
            simp only [beq_eq_false_iff_ne, ne_eq]
            rw [hfid]
            exact hpf)
      · intro x hx ho d hd h2 hh hfid hho
        have hxm := List.mem_filter.mp hx
        have hx1 : x ∈ db1.files := hxm.1
        have hdk : d ≠ fid := by
          intro hdf
          have := hxm.2
          rw [hd, hdf, ho] at this
          simp at this
        have hh1 : h2 ∈ db1.folders := pH x hx1 ho d hd h2 hh hfid hho
        exact mem_eraseP_of_not _ hh1 (by
          simp only [beq_eq_false_iff_ne, ne_eq]
          rw [hfid]
          exact hdk)
      · intro x hx ho d hd h2 hh hfid hho
        have hxm := List.mem_filter.mp hx
        have hx1 : x ∈ db1.notes := hxm.1
        have hdk : d ≠ fid := by
          intro hdf
          have := hxm.2
          rw [hd, hdf, ho] at this
          simp at this
        have hh1 : h2 ∈ db1.folders := pN x hx1 ho d hd h2 hh hfid hho
        exact mem_eraseP_of_not _ hh1 (by
          simp only [beq_eq_false_iff_ne, ne_eq]
          rw [hfid]
          exact hdk)


theorem delete_completeness (db : DB) (fid uid : Nat) (db2 : DB) (fr : Folder)
    (hn : NodupIds db.folders) (hfr : fr ∈ db.folders) (hfrf : fr.fid = fid)
    (hfro : fr.owner = uid) (S : DeleteSpec db fid uid db2) :
    ∀ d, InSub db.folders uid fid d → ∀ h, h ∈ db2.folders → h.fid = d → False := by
  obtain ⟨u1, b1, n1, sf1, sfi1, sn1, pR, pB, pBf, pBn, pE, pH, pN⟩ := S
  intro d hins
  induction hins with
  | base =>
    intro h hh hfid
    exact pR h hh hfid
  | step g p hg ho hp hpins ihp =>
    intro h hh hfid
    have hhm : h ∈ db.folders := sf1.subset hh
    have hge : h = g := nodupIds_eq_of_fid_eq hn hhm hg hfid
    subst hge
    rcases insub_root_or_record hpins with hpd | ⟨q, hq, hqf, hqo⟩
    · have hfrmem : fr ∈ db2.folders :=
        pE h hh ho p hp fr hfr (hfrf.trans hpd.symm)
      exact ihp fr hfrmem (hfrf.trans hpd.symm)
    · have hqmem : q ∈ db2.folders := pE h hh ho p hp q hq hqf
      exact ihp q hqmem hqf

/-- Claim C2 (amended): `Delete(folderId, owner, force = true)` removes the
folder together with all descendant subfolders, files and notes — the
surviving folders are exactly those outside the deleted subtree, and the
surviving files and notes are exactly those not owned by the caller or not
referencing a subtree folder — but the owner's `storageUsed` ledger is NOT
decremented: the user records, ledger included, are returned unchanged
(the cascade delete never performs a quota release). -/
theorem C2_force_delete_subtree (fuel : Nat) (db : DB) (uid folderId : Nat) (fr : Folder)
    (db2 : DB) (hn : NodupIds db.folders)
    (ht : db.folders.find? (fun g => g.fid == folderId && g.owner == uid) = some fr)
    (h : deleteFolderRoute fuel db uid folderId true = some (db2, Except.ok ())) :
    db2.users = db.users ∧
    (∀ g, g ∈ db2.folders ↔ (g ∈ db.folders ∧ ¬ InSub db.folders uid folderId g.fid)) ∧
    (∀ x, x ∈ db2.files ↔ (x ∈ db.files ∧
      ¬(x.owner = uid ∧ ∃ d, x.folder = some d ∧ InSub db.folders uid folderId d))) ∧
    (∀ x, x ∈ db2.notes ↔ (x ∈ db.notes ∧
      ¬(x.owner = uid ∧ ∃ d, x.folder = some d ∧ InSub db.folders uid folderId d))) := by
  have hfr : fr ∈ db.folders := List.mem_of_find?_eq_some ht
  have hprop := List.find?_some ht
  have hfrf : fr.fid = folderId := by
    simp only [Bool.and_eq_true, beq_iff_eq] at hprop
    exact hprop.1
  have hfro : fr.owner = uid := by
    simp only [Bool.and_eq_true, beq_iff_eq] at hprop
    exact hprop.2
  unfold deleteFolderRoute at h
  rw [ht] at h
  simp only [Bool.not_true, Bool.and_false, Bool.false_eq_true, if_false] at h
  rw [hfrf] at h
  cases hdel : deleteFolder fuel db folderId uid with
  | none =>
    rw [hdel] at h
    cases h
  | some dbx =>
    rw [hdel] at h
    have h2 := Option.some.inj h
    have hdb : dbx = db2 := congrArg Prod.fst h2
    subst hdb
    have S := deleteFolder_spec fuel db folderId uid dbx hn hdel
    have hcomp := delete_completeness db folderId uid dbx fr hn hfr hfrf hfro S
    obtain ⟨u1, b1, n1, sf1, sfi1, sn1, pR, pB, pBf, pBn, pE, pH, pN⟩ := S
    refine ⟨u1, ?_, ?_, ?_⟩
    · intro g
      constructor
      · intro hg
        exact ⟨sf1.subset hg, fun hins => hcomp g.fid hins g hg rfl⟩
      · rintro ⟨hgdb, hnins⟩
        by_contra hgn
        exact hnins (pB g hgdb hgn)
    · intro x
      constructor
      · intro hx
        refine ⟨sfi1.subset hx, ?_⟩
        rintro ⟨ho, d, hd, hins⟩
        rcases insub_root_or_record hins with hpd | ⟨q, hq, hqf, hqo⟩
        · have hfrmem : fr ∈ dbx.folders :=
            pH x hx ho d hd fr hfr (hfrf.trans hpd.symm) hfro
          exact hcomp d hins fr hfrmem (hfrf.trans hpd.symm)
        · have hqmem : q ∈ dbx.folders := pH x hx ho d hd q hq hqf hqo
          exact hcomp d hins q hqmem hqf
      · rintro ⟨hxdb, hnx⟩
        by_contra hxn
        exact hnx (pBf x hxdb hxn)
    · intro x
      constructor
      · intro hx
        refine ⟨sn1.subset hx, ?_⟩
        rintro ⟨ho, d, hd, hins⟩
        rcases insub_root_or_record hins with hpd | ⟨q, hq, hqf, hqo⟩
        · have hfrmem : fr ∈ dbx.folders :=
            pN x hx ho d hd fr hfr (hfrf.trans hpd.symm) hfro
          exact hcomp d hins fr hfrmem (hfrf.trans hpd.symm)
        · have hqmem : q ∈ dbx.folders := pN x hx ho d hd q hq hqf hqo
          exact hcomp d hins q hqmem hqf
      · rintro ⟨hxdb, hnx⟩
        by_contra hxn
        exact hnx (pBn x hxdb hxn)

/-- Counterexample to claim C2 as stated: force-deleting folder "A" in
`dbTree5` (its subtree holds one 5-byte file; the owner ledger stands at 5)
removes the whole subtree but leaves `storageUsed` at 5, whereas the claim
demands it drop by the contained file sizes to 0. -/
theorem C2_counterexample :
    (deleteFolderRoute 10 dbTree5 7 1 true).map
      (fun p => (p.1.users.map User.storageUsed, p.1.folders.length, p.1.files.length, p.2))
      = some ([5], 0, 0, Except.ok ()) ∧ (5 : Int) ≠ 0 := by
  constructor
  · simp [deleteFolderRoute, deleteFolder, deleteSubs, dbTree5, List.find?, List.filter,
      List.eraseP]
  · decide

/-- Witness for the amended C2 at `dbTree5`. -/
theorem C2_force_delete_subtree_witness :
    let dbr : DB := ⟨[], [], [], [⟨7, 5, 1000⟩], ["pf"], 4⟩
    dbr.users = dbTree5.users ∧
    (∀ g, g ∈ dbr.folders ↔ (g ∈ dbTree5.folders ∧ ¬ InSub dbTree5.folders 7 1 g.fid)) ∧
    (∀ x, x ∈ dbr.files ↔ (x ∈ dbTree5.files ∧
      ¬(x.owner = 7 ∧ ∃ d, x.folder = some d ∧ InSub dbTree5.folders 7 1 d))) ∧
    (∀ x, x ∈ dbr.notes ↔ (x ∈ dbTree5.notes ∧
      ¬(x.owner = 7 ∧ ∃ d, x.folder = some d ∧ InSub dbTree5.folders 7 1 d))) :=
  C2_force_delete_subtree 10 dbTree5 7 1 ⟨1, "A", none, 7, none, "A", false, "c"⟩ _
    (by simp [NodupIds, dbTree5]) (by rfl)
    (by simp [deleteFolderRoute, deleteFolder, deleteSubs, dbTree5, List.find?, List.filter,
      List.eraseP])


/-! ### Plain patterns: the regex and replace machinery on metacharacter-free
paths (claims C3 and C1) -/

theorem parseAtoms_plain (l : List Char) (hl : ∀ c ∈ l, c ∉ regexMeta) :
    parseAtoms l = some (l.map (fun c => RPiece.once (RAtom.ch c))) := by
  induction l with
  | nil => rfl
  | cons c rest ih =>
    have hc : c ∉ regexMeta := hl c (List.mem_cons_self _ _)
    have hrest : ∀ d ∈ rest, d ∉ regexMeta := fun d hd => hl d (List.mem_cons_of_mem _ hd)
    have h1 : c ≠ '\\' := fun he => hc (by rw [he]; decide)
    have hstep : parseAtoms (c :: rest)
        = (parseAtoms rest).map (fun x => RPiece.once (RAtom.ch c) :: x) := by
      have hmeta : ∀ m : Char, m ∈ regexMeta → ¬ c = m := fun m hm he => hc (he ▸ hm)
      rw [parseAtoms.eq_def]
      split
      · simp_all
      · simp_all
      · rename_i a1 c2 rest2 hno heq
        rw [List.cons.injEq] at heq
        obtain ⟨he1, he2⟩ := heq
        subst he1
        subst he2
        rw [if_neg (by
          intro hm
          simp only [List.mem_cons, List.not_mem_nil, or_false] at hm
          rcases hm with h | h | h | h | h | h | h | h | h | h <;>
            exact hmeta _ (by decide) h)]
        rw [if_neg (by
          intro hm
          simp only [List.mem_cons, List.not_mem_nil, or_false] at hm
          rcases hm with h | h | h <;> exact hmeta _ (by decide) h)]
        have hdot : ¬ c = '.' := hmeta '.' (by decide)
        simp only [hdot, if_false]
        split
        · exact absurd (by decide) (hrest '*' (List.mem_cons_self _ _))
        · exact absurd (by decide) (hrest '+' (List.mem_cons_self _ _))
        · exact absurd (by decide) (hrest '?' (List.mem_cons_self _ _))
        · rfl
    rw [hstep, ih hrest]
    rfl

theorem parseMongoRegex_plain (l : List Char) (hl : ∀ c ∈ l, c ∉ regexMeta) :
    parseMongoRegex ('^' :: l)
      = some ⟨true, l.map (fun c => RPiece.once (RAtom.ch c))⟩ := by
  show (parseAtoms l).map (fun ps => (⟨true, ps⟩ : MiniRegex)) = _
  rw [parseAtoms_plain l hl]
  rfl

theorem matchPiecesF_literal : ∀ fuel (l s : List Char), l.length + s.length < fuel →
    matchPiecesF fuel (l.map (fun c => RPiece.once (RAtom.ch c))) s = l.isPrefixOf s := by
  intro fuel
  induction fuel with
  | zero =>
    intro l s h
    omega
  | succ n ih =>
    intro l s h
    cases l with
    | nil =>
      simp [matchPiecesF, List.isPrefixOf]
    | cons c l2 =>
      cases s with
      | nil =>
        simp [matchPiecesF, List.isPrefixOf]
      | cons d s2 =>
        simp only [List.map_cons, matchPiecesF, List.isPrefixOf, matchAtom]
        rw [ih l2 s2 (by simp only [List.length_cons] at h; omega)]
        by_cases hcd : c = d
        · subst hcd
          simp
        · have h2 : (c == d) = false := beq_eq_false_iff_ne.mpr hcd
          simp [hcd, h2]

theorem matchPieces_literal (l s : List Char) :
    matchPieces (l.map (fun c => RPiece.once (RAtom.ch c))) s = l.isPrefixOf s := by
  unfold matchPieces
  exact matchPiecesF_literal _ l s (by rw [List.length_map]; omega)

theorem regexAccepts_literal (l s : List Char) :
    regexAccepts ⟨true, l.map (fun c => RPiece.once (RAtom.ch c))⟩ s = l.isPrefixOf s := by
  unfold regexAccepts
  exact matchPieces_literal l s

theorem expandRepl_no_dollar (m b a : List Char) :
    ∀ rep : List Char, (∀ c ∈ rep, c ≠ '$') → expandRepl m b a rep = rep := by
  intro rep
  induction rep with
  | nil =>
    intro h
    rfl
  | cons c rest ih =>
    intro h
    have hc : c ≠ '$' := h c (List.mem_cons_self _ _)
    have hrest : ∀ d ∈ rest, d ≠ '$' := fun d hd => h d (List.mem_cons_of_mem _ hd)
    have hstep : expandRepl m b a (c :: rest) = c :: expandRepl m b a rest := by
      rw [expandRepl.eq_def]
      split <;> simp_all
    rw [hstep, ih hrest]

theorem findSub_of_isPrefixOf (pat s : List Char) (hp : pat.isPrefixOf s = true) :
    findSub pat s = some 0 := by
  cases s with
  | nil => simp [findSub, hp]
  | cons c cs => simp [findSub, hp]

theorem jsReplaceOnce_front (s pat rep : List Char) (hp : pat.isPrefixOf s = true)
    (hrep : ∀ c ∈ rep, c ≠ '$') :
    jsReplaceOnce s pat rep = rep ++ s.drop pat.length := by
  unfold jsReplaceOnce
  rw [findSub_of_isPrefixOf _ _ hp]
  simp only [List.take_zero, List.nil_append, Nat.zero_add]
  rw [expandRepl_no_dollar _ _ _ rep hrep]


theorem applyMeta_name_truthy (f : Folder) (n d c : Option String) (fav : Option Bool)
    (hn : jsStrTruthy n = true) : (applyMeta f n d c fav).name = n.getD "" := by
  simp only [applyMeta, hn, if_true]
  cases fav <;> cases d <;> split_ifs <;> rfl

theorem splitSlash_chars : ∀ (l : List Char) (seg : List Char), seg ∈ splitSlash l →
    ∀ c, c ∈ seg → c ∈ l := by
  intro l
  induction l with
  | nil =>
    intro seg hseg c hc
    simp only [splitSlash, List.mem_singleton] at hseg
    subst hseg
    cases hc
  | cons a t ih =>
    intro seg hseg c hc
    simp only [splitSlash] at hseg
    rcases hsp : splitSlash t with _ | ⟨s0, ss⟩
    · rw [hsp] at hseg
      simp only [List.mem_singleton] at hseg
      subst hseg
      cases hc
    · rw [hsp] at hseg
      by_cases ha : a = '/'
      · simp only [ha, if_true] at hseg
        rcases List.mem_cons.mp hseg with h1 | h1
        · subst h1
          cases hc
        · exact List.mem_cons_of_mem _ (ih seg (by rw [hsp]; exact h1) c hc)
      · simp only [ha, if_false] at hseg
        rcases List.mem_cons.mp hseg with h1 | h1
        · subst h1
          rcases List.mem_cons.mp hc with h2 | h2
          · subst h2
            exact List.mem_cons_self _ _
          · exact List.mem_cons_of_mem _
              (ih s0 (by rw [hsp]; exact List.mem_cons_self _ _) c h2)
        · exact List.mem_cons_of_mem _
            (ih seg (by rw [hsp]; exact List.mem_cons_of_mem _ h1) c hc)

theorem setLast_mem : ∀ (parts : List (List Char)) (x seg : List Char),
    seg ∈ setLast x parts → seg = x ∨ seg ∈ parts := by
  intro parts
  induction parts with
  | nil =>
    intro x seg hseg
    cases hseg
  | cons p ps ih =>
    intro x seg hseg
    cases ps with
    | nil =>
      simp only [setLast, List.mem_singleton] at hseg
      exact Or.inl hseg
    | cons p2 ps2 =>
      simp only [setLast] at hseg
      rcases List.mem_cons.mp hseg with h1 | h1
      · exact Or.inr (h1 ▸ List.mem_cons_self _ _)
      · rcases ih x seg h1 with h2 | h2
        · exact Or.inl h2
        · exact Or.inr (List.mem_cons_of_mem _ h2)

theorem joinSlash_chars : ∀ (parts : List (List Char)) (c : Char), c ∈ joinSlash parts →
    c = '/' ∨ ∃ seg, seg ∈ parts ∧ c ∈ seg := by
  intro parts
  induction parts with
  | nil =>
    intro c hc
    cases hc
  | cons p ps ih =>
    intro c hc
    cases ps with
    | nil =>
      exact Or.inr ⟨p, List.mem_cons_self _ _, hc⟩
    | cons p2 ps2 =>
      simp only [joinSlash] at hc
      rcases List.mem_append.mp hc with h1 | h1
      · exact Or.inr ⟨p, List.mem_cons_self _ _, h1⟩
      · rcases List.mem_cons.mp h1 with h2 | h2
        · exact Or.inl h2
        · rcases ih c h2 with h3 | ⟨seg, hs1, hs2⟩
          · exact Or.inl h3
          · exact Or.inr ⟨seg, List.mem_cons_of_mem _ hs1, hs2⟩

theorem replaceLastSeg_chars (p n : List Char) (c : Char) (hc : c ∈ replaceLastSeg p n) :
    c = '/' ∨ c ∈ p ∨ c ∈ n := by
  unfold replaceLastSeg at hc
  rcases joinSlash_chars _ c hc with h1 | ⟨seg, hs1, hs2⟩
  · exact Or.inl h1
  · rcases setLast_mem _ _ _ hs1 with h2 | h2
    · exact Or.inr (Or.inr (h2 ▸ hs2))
    · exact Or.inr (Or.inl (splitSlash_chars p seg h2 c hs2))

theorem validName_trim_ne_empty (s : String) (h : validName s = true) : jsTrim s ≠ "" := by
  intro he
  unfold validName at h
  rw [he] at h
  simp at h


/-- Claim C3 (amended): for a rename of a folder F to a new name — provided
F's stored path and the new name contain no PCRE metacharacters (the code
interpolates the raw old path into a Mongo `$regex` and hands the new path
to JavaScript `replace`, both of which misbehave on metacharacters, see the
counterexample) — the renamed folder's own path has exactly its last
`/`-segment replaced by the new name, every other folder of the same owner
whose path starts with `oldPath + "/"` has that prefix rewritten to
`newPath + "/"` with the rest of its path unchanged, no folder's
`parentFolder` reference changes, and non-matching folders and the other
collections are untouched.  The last conjunct replays the spec scenario:
renaming "A" (with child "B" at "A/B") to "A2" moves "B" to "A2/B". -/
theorem C3_rename_path_fixup (db : DB) (uid fid : Nat) (nm : String)
    (desc col : Option String) (fav : Option Bool) (fr : Folder)
    (hnodup : NodupIds db.folders)
    (ht : db.folders.find? (fun g => g.fid == fid && g.owner == uid) = some fr)
    (hval : validName nm = true) (hvd : validDescription desc = true)
    (hneq : jsTrim nm ≠ fr.name)
    (hdup : db.folders.find? (fun g => g.name == jsTrim nm && g.owner == uid &&
      g.parentFolder == fr.parentFolder && !(g.fid == fr.fid)) = none)
    (hplainP : ∀ c ∈ fr.path.data, c ∉ regexMeta)
    (hplainN : ∀ c ∈ (jsTrim nm).data, c ∉ regexMeta) :
    ∃ db2, updateFolder db uid fid (some nm) desc col fav = Except.ok db2 ∧
      db2.files = db.files ∧ db2.notes = db.notes ∧ db2.users = db.users ∧
      db2.blobs = db.blobs ∧ db2.nextId = db.nextId ∧
      db2.folders.length = db.folders.length ∧
      (∀ i (hi : i < db.folders.length) (hi2 : i < db2.folders.length),
        (db2.folders.get ⟨i, hi2⟩).parentFolder = (db.folders.get ⟨i, hi⟩).parentFolder ∧
        ((db.folders.get ⟨i, hi⟩).fid = fr.fid →
          (db2.folders.get ⟨i, hi2⟩).path.data
              = replaceLastSeg fr.path.data (jsTrim nm).data ∧
          (db2.folders.get ⟨i, hi2⟩).name = jsTrim nm) ∧
        ((db.folders.get ⟨i, hi⟩).fid ≠ fr.fid → (db.folders.get ⟨i, hi⟩).owner = uid →
          ∀ rest, (db.folders.get ⟨i, hi⟩).path.data = fr.path.data ++ '/' :: rest →
            (db2.folders.get ⟨i, hi2⟩).path.data
                = replaceLastSeg fr.path.data (jsTrim nm).data ++ '/' :: rest ∧
            (db2.folders.get ⟨i, hi2⟩).name = (db.folders.get ⟨i, hi⟩).name ∧
            (db2.folders.get ⟨i, hi2⟩).fid = (db.folders.get ⟨i, hi⟩).fid ∧
            (db2.folders.get ⟨i, hi2⟩).owner = (db.folders.get ⟨i, hi⟩).owner) ∧
        ((db.folders.get ⟨i, hi⟩).fid ≠ fr.fid →
          ¬((db.folders.get ⟨i, hi⟩).owner = uid ∧
            (fr.path.data ++ ['/']).isPrefixOf (db.folders.get ⟨i, hi⟩).path.data = true) →
          db2.folders.get ⟨i, hi2⟩ = db.folders.get ⟨i, hi⟩)) ∧
      (updateFolder dbNested 7 1 (some "A2") none none none).toOption.map
        (fun d => d.folders.map Folder.path) = some ["A2", "A2/B"] := by
  have hfrmem : fr ∈ db.folders := List.mem_of_find?_eq_some ht
  have hne0 : jsTrim nm ≠ "" := validName_trim_ne_empty nm hval
  have hplainP2 : ∀ c ∈ fr.path.data ++ ['/'], c ∉ regexMeta := by
    intro c hc
    rcases List.mem_append.mp hc with h | h
    · exact hplainP c h
    · simp only [List.mem_singleton] at h
      subst h
      decide
  have hplainNew : ∀ c ∈ replaceLastSeg fr.path.data (jsTrim nm).data, c ≠ '$' := by
    intro c hc he
    rcases replaceLastSeg_chars _ _ c hc with h | h | h
    · rw [h] at he
      exact absurd he (by decide)
    · exact hplainP c h (by rw [he]; decide)
    · exact hplainN c h (by rw [he]; decide)
  have hcond : (!((match (some nm : Option String) with
      | some s => validName s
      | none => true) && validDescription desc)) = false := by
    simp [hval, hvd]
  have hr : parseMongoRegex (('^' :: fr.path.data) ++ ['/'])
      = some ⟨true, (fr.path.data ++ ['/']).map (fun c => RPiece.once (RAtom.ch c))⟩ := by
    rw [List.cons_append]
    exact parseMongoRegex_plain _ hplainP2
  have hdoR : (!(jsTrim nm == "") && !(jsTrim nm == fr.name)) = true := by
    rw [beq_eq_false_iff_ne.mpr hne0, beq_eq_false_iff_ne.mpr hneq]
    rfl
  have hmain : updateFolder db uid fid (some nm) desc col fav = Except.ok
      { db with folders := (db.folders.map (fun g =>
          if g.owner == uid && regexAccepts
              ⟨true, (fr.path.data ++ ['/']).map (fun c => RPiece.once (RAtom.ch c))⟩
              g.path.data then
            { g with path := String.mk (jsReplaceOnce g.path.data fr.path.data
                (String.mk (replaceLastSeg fr.path.data (jsTrim nm).data)).data) }
          else g)).map (fun g => if g.fid == fr.fid then
            applyMeta { fr with
                path := String.mk (replaceLastSeg fr.path.data (jsTrim nm).data) }
              (some (jsTrim nm)) (desc.map jsTrim) col fav
          else g) } := by
    unfold updateFolder
    rw [hcond]
    simp only [Bool.false_eq_true, if_false]
    rw [ht]
    dsimp only [Option.map, Option.getD]
    rw [hdoR]
    simp only [if_true]
    rw [hdup]
    simp only [Option.isSome_none, Bool.false_eq_true, if_false]
    rw [hr]
  refine ⟨_, hmain, rfl, rfl, rfl, rfl, rfl, by simp, ?_, rfl⟩
  intro i hi hi2
  have hgetA : ∀ (l : List Folder) (F : Folder → Folder) (hw : i < (l.map F).length)
      (hv : i < l.length), (l.map F).get ⟨i, hw⟩ = F (l.get ⟨i, hv⟩) := by
    intro l F hw hv
    simp
  have hlen1 : i < (db.folders.map (fun g =>
      if g.owner == uid && regexAccepts
          ⟨true, (fr.path.data ++ ['/']).map (fun c => RPiece.once (RAtom.ch c))⟩
          g.path.data then
        { g with path := String.mk (jsReplaceOnce g.path.data fr.path.data
            (String.mk (replaceLastSeg fr.path.data (jsTrim nm).data)).data) }
      else g)).length := by
    simp only [List.length_map]
    exact hi
  rw [hgetA _ _ hi2 hlen1, hgetA _ _ hlen1 hi]
  by_cases hA : (db.folders.get ⟨i, hi⟩).fid = fr.fid
  · have hgfr : db.folders.get ⟨i, hi⟩ = fr :=
      nodupIds_eq_of_fid_eq hnodup (List.get_mem _ _ _) hfrmem hA
    have hfid1 : (if (db.folders.get ⟨i, hi⟩).owner == uid && regexAccepts
          ⟨true, (fr.path.data ++ ['/']).map (fun c => RPiece.once (RAtom.ch c))⟩
          (db.folders.get ⟨i, hi⟩).path.data then
        { db.folders.get ⟨i, hi⟩ with
            path := String.mk (jsReplaceOnce (db.folders.get ⟨i, hi⟩).path.data fr.path.data
              (String.mk (replaceLastSeg fr.path.data (jsTrim nm).data)).data) }
      else db.folders.get ⟨i, hi⟩).fid = fr.fid := by
      split
      · exact hA
      · exact hA
    rw [if_pos (beq_iff_eq.mpr hfid1)]
    refine ⟨?_, ?_, ?_, ?_⟩
    · rw [applyMeta_parentFolder, hgfr]
    · intro _
      constructor
      · rw [applyMeta_path]
      · rw [applyMeta_name_truthy]
        · rfl
        · simp only [jsStrTruthy]
          rw [beq_eq_false_iff_ne.mpr hne0]
          rfl
    · intro hne _ _ _
      exact absurd hA hne
    · intro hne _
      exact absurd hA hne
  · have hfid1 : (if (db.folders.get ⟨i, hi⟩).owner == uid && regexAccepts
          ⟨true, (fr.path.data ++ ['/']).map (fun c => RPiece.once (RAtom.ch c))⟩
          (db.folders.get ⟨i, hi⟩).path.data then
        { db.folders.get ⟨i, hi⟩ with
            path := String.mk (jsReplaceOnce (db.folders.get ⟨i, hi⟩).path.data fr.path.data
              (String.mk (replaceLastSeg fr.path.data (jsTrim nm).data)).data) }
      else db.folders.get ⟨i, hi⟩).fid = (db.folders.get ⟨i, hi⟩).fid := by
      split
      · rfl
      · rfl
    rw [if_neg (by
      rw [beq_iff_eq, hfid1]
      exact hA)]
    rw [regexAccepts_literal]
    by_cases hB : (db.folders.get ⟨i, hi⟩).owner = uid ∧
        (fr.path.data ++ ['/']).isPrefixOf (db.folders.get ⟨i, hi⟩).path.data = true
    · obtain ⟨hBo, hBp⟩ := hB
      have hcnd1 : ((db.folders.get ⟨i, hi⟩).owner == uid &&
          (fr.path.data ++ ['/']).isPrefixOf (db.folders.get ⟨i, hi⟩).path.data) = true := by
        rw [hBp, beq_iff_eq.mpr hBo]
        rfl
      rw [if_pos hcnd1]
      refine ⟨rfl, ?_, ?_, ?_⟩
      · intro hA2
        exact absurd hA2 hA
      · intro _ _ rest hrest
        have hpfx : fr.path.data.isPrefixOf (db.folders.get ⟨i, hi⟩).path.data = true := by
          rw [ List.isPrefixOf_iff_prefix, hrest]
          exact ⟨'/' :: rest, rfl⟩
        refine ⟨?_, rfl, rfl, rfl⟩
        show (String.mk (jsReplaceOnce (db.folders.get ⟨i, hi⟩).path.data fr.path.data
            (String.mk (replaceLastSeg fr.path.data (jsTrim nm).data)).data)).data = _
        rw [jsReplaceOnce_front _ _ _ hpfx hplainNew, hrest, List.drop_left]
      · intro _ hnB
        exact absurd ⟨hBo, hBp⟩ hnB
    · have hcnd : ((db.folders.get ⟨i, hi⟩).owner == uid &&
          (fr.path.data ++ ['/']).isPrefixOf (db.folders.get ⟨i, hi⟩).path.data) = false := by
        by_cases hBo : (db.folders.get ⟨i, hi⟩).owner = uid
        · have hBp : (fr.path.data ++ ['/']).isPrefixOf
              (db.folders.get ⟨i, hi⟩).path.data = false := by
            cases hx : (fr.path.data ++ ['/']).isPrefixOf (db.folders.get ⟨i, hi⟩).path.data
            · rfl
            · exact absurd ⟨hBo, hx⟩ hB
          rw [hBp, Bool.and_false]
        · rw [beq_eq_false_iff_ne.mpr hBo, Bool.false_and]
      rw [if_neg (by
        intro hx
        rw [hcnd] at hx
        exact absurd hx (by decide))]
      refine ⟨rfl, ?_, ?_, fun _ _ => rfl⟩
      · intro hA2
        exact absurd hA2 hA
      · intro _ hBo rest hrest
        exfalso
        apply hB
        refine ⟨hBo, ?_⟩
        rw [ List.isPrefixOf_iff_prefix, hrest]
        exact ⟨rest, by simp⟩

/-- Witness for (amended) claim C3: renaming folder "A" (fid 1) of `dbNested`
    to "A2" succeeds, fixes up the paths as stated, and yields folder paths
    ["A2", "A2/B"]. -/
theorem C3_rename_path_fixup_witness :
    ∃ db2, updateFolder dbNested 7 1 (some "A2") none none none = Except.ok db2 ∧
      db2.files = dbNested.files ∧ db2.notes = dbNested.notes ∧
      db2.users = dbNested.users ∧
      db2.blobs = dbNested.blobs ∧ db2.nextId = dbNested.nextId ∧
      db2.folders.length = dbNested.folders.length ∧
      (∀ i (hi : i < dbNested.folders.length) (hi2 : i < db2.folders.length),
        (db2.folders.get ⟨i, hi2⟩).parentFolder
            = (dbNested.folders.get ⟨i, hi⟩).parentFolder ∧
        ((dbNested.folders.get ⟨i, hi⟩).fid
              = (⟨1, "A", none, 7, none, "A", false, "c"⟩ : Folder).fid →
          (db2.folders.get ⟨i, hi2⟩).path.data
              = replaceLastSeg ("A" : String).data (jsTrim "A2").data ∧
          (db2.folders.get ⟨i, hi2⟩).name = jsTrim "A2") ∧
        ((dbNested.folders.get ⟨i, hi⟩).fid
              ≠ (⟨1, "A", none, 7, none, "A", false, "c"⟩ : Folder).fid →
          (dbNested.folders.get ⟨i, hi⟩).owner = 7 →
          ∀ rest, (dbNested.folders.get ⟨i, hi⟩).path.data
              = ("A" : String).data ++ '/' :: rest →
            (db2.folders.get ⟨i, hi2⟩).path.data
                = replaceLastSeg ("A" : String).data (jsTrim "A2").data
                    ++ '/' :: rest ∧
            (db2.folders.get ⟨i, hi2⟩).name = (dbNested.folders.get ⟨i, hi⟩).name ∧
            (db2.folders.get ⟨i, hi2⟩).fid = (dbNested.folders.get ⟨i, hi⟩).fid ∧
            (db2.folders.get ⟨i, hi2⟩).owner = (dbNested.folders.get ⟨i, hi⟩).owner) ∧
        ((dbNested.folders.get ⟨i, hi⟩).fid
              ≠ (⟨1, "A", none, 7, none, "A", false, "c"⟩ : Folder).fid →
          ¬((dbNested.folders.get ⟨i, hi⟩).owner = 7 ∧
            (("A" : String).data ++ ['/']).isPrefixOf
                (dbNested.folders.get ⟨i, hi⟩).path.data = true) →
          db2.folders.get ⟨i, hi2⟩ = dbNested.folders.get ⟨i, hi⟩)) ∧
      (updateFolder dbNested 7 1 (some "A2") none none none).toOption.map
        (fun d => d.folders.map Folder.path) = some ["A2", "A2/B"] :=
  C3_rename_path_fixup dbNested 7 1 "A2" none none none
    ⟨1, "A", none, 7, none, "A", false, "c"⟩
    (by simp [NodupIds, dbNested]) rfl rfl rfl (by decide) rfl (by decide) (by decide)

/-- Counterexample to claim C3 as stated: in `dbStar` the root folder is
    named "a*" (its path "a*" contains the regex metacharacter '*') and has
    a child at path "a*/b".  Renaming "a*" to "x" does update the folder
    itself to path "x", but the descendant query uses the unescaped old path
    in a `$regex` anchor, so the pattern "^a*/" fails to match "a*/b" and
    the child keeps the stale path "a*/b" instead of "x/b" — even though
    "a*/b" does start with the old path plus "/". -/
theorem C3_counterexample :
    (updateFolder dbStar 7 1 (some "x") none none none).toOption.map
        (fun d => d.folders.map Folder.path) = some ["x", "a*/b"] ∧
    startsWithStr "a*/" "a*/b" = true ∧
    ("a*/b" : String) ≠ "x/b" := by
  refine ⟨rfl, rfl, by decide⟩

theorem strData_append (a b : String) : (a ++ b).data = a.data ++ b.data := by
  cases a with
  | mk la => cases b with
    | mk lb => rfl

theorem strMk_data (s : String) : String.mk s.data = s := by
  cases s with
  | mk l => rfl

theorem strData_inj {a b : String} (h : a.data = b.data) : a = b := by
  cases a with
  | mk la => cases b with
    | mk lb => exact congrArg String.mk h

theorem pathSplitData (a b : String) : (a ++ "/" ++ b).data = a.data ++ '/' :: b.data := by
  rw [strData_append, strData_append]
  simp

theorem mem_of_isPrefixOf {l s : List Char} {c : Char}
    (h : l.isPrefixOf s = true) (hc : c ∈ l) : c ∈ s := by
  rw [ List.isPrefixOf_iff_prefix] at h
  obtain ⟨t, ht⟩ := h
  subst ht
  exact List.mem_append_left _ hc

theorem isPrefixOf_length_le {l s : List Char} (h : l.isPrefixOf s = true) :
    l.length ≤ s.length := by
  rw [ List.isPrefixOf_iff_prefix] at h
  exact h.length_le

theorem isPrefixOf_of_append {a b s : List Char} (h : (a ++ b).isPrefixOf s = true) :
    a.isPrefixOf s = true := by
  rw [ List.isPrefixOf_iff_prefix] at h ⊢
  exact List.IsPrefix.trans ⟨b, rfl⟩ h

theorem isPrefixOf_append_right {a p : List Char} (t : List Char)
    (h : a.isPrefixOf p = true) : a.isPrefixOf (p ++ t) = true := by
  rw [ List.isPrefixOf_iff_prefix] at h ⊢
  exact h.trans ⟨t, rfl⟩

theorem splitSlash_ne_nil : ∀ l : List Char, splitSlash l ≠ [] := by
  intro l
  cases l with
  | nil => simp [splitSlash]
  | cons c cs =>
    unfold splitSlash
    cases h : splitSlash cs with
    | nil => simp
    | cons s ss => by_cases hc : c = '/' <;> simp [hc]

theorem splitSlash_no_slash : ∀ l : List Char, '/' ∉ l → splitSlash l = [l] := by
  intro l
  induction l with
  | nil => intro _; rfl
  | cons c cs ih =>
    intro h
    have hc : ¬(c = '/') := fun he => h (by rw [← he]; exact List.mem_cons_self _ _)
    have hcs : '/' ∉ cs := fun hm => h (List.mem_cons_of_mem _ hm)
    unfold splitSlash
    rw [ih hcs]
    simp [hc]

theorem splitSlash_append (xs ys : List Char) (hys : '/' ∉ ys) :
    splitSlash (xs ++ '/' :: ys) = splitSlash xs ++ [ys] := by
  induction xs with
  | nil =>
    show splitSlash ('/' :: ys) = [[]] ++ [ys]
    unfold splitSlash
    rw [splitSlash_no_slash ys hys]
    simp
  | cons c cs ih =>
    show splitSlash (c :: (cs ++ '/' :: ys)) = splitSlash (c :: cs) ++ [ys]
    unfold splitSlash
    rw [ih]
    cases h : splitSlash cs with
    | nil => exact absurd h (splitSlash_ne_nil cs)
    | cons s ss =>
      by_cases hc : c = '/' <;> simp [hc]

theorem joinSlash_append_last (l : List (List Char)) (hl : l ≠ []) (x : List Char) :
    joinSlash (l ++ [x]) = joinSlash l ++ '/' :: x := by
  induction l with
  | nil => exact absurd rfl hl
  | cons s ss ih =>
    cases ss with
    | nil => rfl
    | cons s2 ss2 =>
      show joinSlash (s :: ((s2 :: ss2) ++ [x]))
          = (s ++ '/' :: joinSlash (s2 :: ss2)) ++ '/' :: x
      rw [List.cons_append]
      show s ++ '/' :: joinSlash ((s2 :: ss2) ++ [x]) = _
      rw [ih (by simp)]
      simp

theorem joinSlash_splitSlash : ∀ l : List Char, joinSlash (splitSlash l) = l := by
  intro l
  induction l with
  | nil => rfl
  | cons c cs ih =>
    unfold splitSlash
    cases h : splitSlash cs with
    | nil => exact absurd h (splitSlash_ne_nil cs)
    | cons s ss =>
      rw [h] at ih
      by_cases hc : c = '/'
      · subst hc
        simp only [if_pos rfl]
        show [] ++ '/' :: joinSlash (s :: ss) = '/' :: cs
        rw [ih]
        rfl
      · simp only [if_neg hc]
        cases ss with
        | nil =>
          show c :: s = c :: cs
          have : s = cs := ih
          rw [this]
        | cons s2 ss2 =>
          show (c :: s) ++ '/' :: joinSlash (s2 :: ss2) = c :: cs
          rw [← ih]
          rfl

theorem setLast_append_last : ∀ (l : List (List Char)) (a x : List Char),
    setLast x (l ++ [a]) = l ++ [x] := by
  intro l a x
  induction l with
  | nil => rfl
  | cons s ss ih =>
    cases ss with
    | nil => rfl
    | cons s2 ss2 =>
      show s :: setLast x ((s2 :: ss2) ++ [a]) = s :: ((s2 :: ss2) ++ [x])
      rw [ih]

theorem replaceLastSeg_append (xs nm : List Char) {name : List Char} (hname : '/' ∉ name) :
    replaceLastSeg (xs ++ '/' :: name) nm = xs ++ '/' :: nm := by
  unfold replaceLastSeg
  rw [splitSlash_append xs name hname, setLast_append_last,
    joinSlash_append_last _ (splitSlash_ne_nil xs), joinSlash_splitSlash]

theorem replaceLastSeg_flat (xs nm : List Char) (hxs : '/' ∉ xs) :
    replaceLastSeg xs nm = nm := by
  unfold replaceLastSeg
  rw [splitSlash_no_slash xs hxs]
  rfl

theorem isPrefixOf_slash_cases : ∀ (a p : List Char) {name : List Char}, '/' ∉ name →
    (a ++ ['/']).isPrefixOf (p ++ '/' :: name) = true →
    a = p ∨ (a ++ ['/']).isPrefixOf p = true := by
  intro a
  induction a with
  | nil =>
    intro p name hname h
    cases p with
    | nil => exact Or.inl rfl
    | cons y p' =>
      right
      simp only [List.nil_append, List.cons_append, List.isPrefixOf, Bool.and_eq_true,
        beq_iff_eq] at h ⊢
      exact ⟨h.1, trivial⟩
  | cons x a' ih =>
    intro p name hname h
    cases p with
    | nil =>
      exfalso
      simp only [List.nil_append, List.cons_append, List.isPrefixOf, Bool.and_eq_true,
        beq_iff_eq] at h
      exact hname (mem_of_isPrefixOf h.2 (List.mem_append_right _ (List.mem_singleton.mpr rfl)))
    | cons y p' =>
      simp only [List.cons_append, List.isPrefixOf, Bool.and_eq_true, beq_iff_eq] at h
      obtain ⟨hxy, h2⟩ := h
      rcases ih p' hname h2 with he | hpre
      · exact Or.inl (by rw [hxy, he])
      · right
        simp only [List.cons_append, List.isPrefixOf, Bool.and_eq_true, beq_iff_eq]
        exact ⟨hxy, hpre⟩

theorem parentOk_exists {fs : List Folder} (hp : ParentOk fs) {f : Folder} (hf : f ∈ fs)
    {pid : Nat} (hpid : f.parentFolder = some pid) :
    ∃ p ∈ fs, p.fid = pid ∧ p.owner = f.owner := by
  have h := hp f hf
  rw [hpid] at h
  simp only [Option.all_some] at h
  rw [List.any_eq_true] at h
  obtain ⟨p, hpmem, hpp⟩ := h
  rw [Bool.and_eq_true, beq_iff_eq, beq_iff_eq] at hpp
  exact ⟨p, hpmem, hpp.1, hpp.2⟩

theorem findFolder_mem {fs : List Folder} {pid : Nat} {p : Folder}
    (h : findFolder fs pid = some p) : p ∈ fs ∧ p.fid = pid := by
  refine ⟨List.mem_of_find?_eq_some h, ?_⟩
  have h2 := List.find?_some h
  rwa [beq_iff_eq] at h2

theorem findFolder_of_mem {fs : List Folder} (hn : NodupIds fs) {p : Folder}
    (hp : p ∈ fs) {pid : Nat} (hpid : p.fid = pid) : findFolder fs pid = some p := by
  cases h : findFolder fs pid with
  | none =>
    exfalso
    have h2 := List.find?_eq_none.mp h p hp
    rw [beq_iff_eq] at h2
    exact h2 hpid
  | some q =>
    obtain ⟨hqmem, hqfid⟩ := findFolder_mem h
    rw [nodupIds_eq_of_fid_eq hn hqmem hp (by rw [hqfid, hpid])]

theorem findFolder_append {fs : List Folder} {pid : Nat} {p : Folder} (l : List Folder)
    (h : findFolder fs pid = some p) : findFolder (fs ++ l) pid = some p := by
  induction fs with
  | nil => exact absurd h (by simp [findFolder])
  | cons a as ih =>
    unfold findFolder at h ih ⊢
    rw [List.cons_append]
    by_cases ha : (a.fid == pid) = true
    · rw [List.find?_cons_of_pos (p := fun g : Folder => g.fid == pid) _ ha] at h
      rw [List.find?_cons_of_pos (p := fun g : Folder => g.fid == pid) _ ha]
      exact h
    · rw [List.find?_cons_of_neg (p := fun g : Folder => g.fid == pid) _ (by simpa using ha)] at h
      rw [List.find?_cons_of_neg (p := fun g : Folder => g.fid == pid) _ (by simpa using ha)]
      exact ih h

theorem findFolder_map {fs : List Folder} {F : Folder → Folder}
    (hfid : ∀ g ∈ fs, (F g).fid = g.fid) (pid : Nat) :
    findFolder (fs.map F) pid = (findFolder fs pid).map F := by
  induction fs with
  | nil => rfl
  | cons a as ih =>
    have ha := hfid a (List.mem_cons_self _ _)
    have has : ∀ g ∈ as, (F g).fid = g.fid := fun g hg => hfid g (List.mem_cons_of_mem _ hg)
    unfold findFolder at ih ⊢
    rw [List.map_cons]
    by_cases h : (a.fid == pid) = true
    · rw [List.find?_cons_of_pos (p := fun g : Folder => g.fid == pid) _
          (by show ((F a).fid == pid) = true; rw [ha]; exact h),
        List.find?_cons_of_pos (p := fun g : Folder => g.fid == pid) _ h]
      rfl
    · rw [List.find?_cons_of_neg (p := fun g : Folder => g.fid == pid) _
          (by show ¬ (((F a).fid == pid) = true); rw [ha]; simpa using h),
        List.find?_cons_of_neg (p := fun g : Folder => g.fid == pid) _ (by simpa using h)]
      exact ih has

theorem getFullPath_root (n : Nat) (fs : List Folder) {f : Folder}
    (hp : f.parentFolder = none) : getFullPath (n + 1) fs f = some f.name := by
  simp only [getFullPath]
  rw [hp]

theorem getFullPath_child (n : Nat) (fs : List Folder) {f : Folder} {pid : Nat}
    (hp : f.parentFolder = some pid) :
    getFullPath (n + 1) fs f
      = match findFolder fs pid with
        | none => none
        | some p => (getFullPath n fs p).map (fun pp => pp ++ "/" ++ f.name) := by
  simp only [getFullPath]
  rw [hp]

theorem getFullPath_child2 (n : Nat) (fs : List Folder) {f : Folder} {pid : Nat}
    {p : Folder} (hp : f.parentFolder = some pid) (hf : findFolder fs pid = some p) :
    getFullPath (n + 1) fs f
      = (getFullPath n fs p).map (fun pp => pp ++ "/" ++ f.name) := by
  rw [getFullPath_child n fs hp, hf]

theorem getFullPath_succ_parts {n : Nat} {fs : List Folder} {f : Folder} {s : String}
    (h : getFullPath (n + 1) fs f = some s) :
    (f.parentFolder = none ∧ s = f.name) ∨
    ∃ pid p pp, f.parentFolder = some pid ∧ findFolder fs pid = some p ∧
      getFullPath n fs p = some pp ∧ s = pp ++ "/" ++ f.name := by
  cases hp : f.parentFolder with
  | none =>
    left
    rw [getFullPath_root n fs hp] at h
    exact ⟨rfl, (Option.some.inj h).symm⟩
  | some pid =>
    right
    cases hf : findFolder fs pid with
    | none =>
      exfalso
      rw [getFullPath_child n fs hp, hf] at h
      exact Option.noConfusion h
    | some p =>
      rw [getFullPath_child2 n fs hp hf] at h
      cases hg : getFullPath n fs p with
      | none =>
        exfalso
        rw [hg] at h
        exact Option.noConfusion h
      | some pp =>
        rw [hg] at h
        exact ⟨pid, p, pp, rfl, hf, hg, (Option.some.inj h).symm⟩

theorem getFullPath_mono : ∀ n m (fs : List Folder) (f : Folder) (s : String), n ≤ m →
    getFullPath n fs f = some s → getFullPath m fs f = some s := by
  intro n
  induction n with
  | zero => intro m fs f s _ h; exact absurd h (by simp [getFullPath])
  | succ n ih =>
    intro m fs f s hle h
    cases m with
    | zero => omega
    | succ m' =>
      rcases getFullPath_succ_parts h with ⟨hp, hs⟩ | ⟨pid, p, pp, hp, hf, hg, hs⟩
      · rw [getFullPath_root m' fs hp, hs]
      · rw [getFullPath_child2 m' fs hp hf, ih m' fs p pp (by omega) hg, hs]
        rfl

theorem getFullPath_funct {n m : Nat} {fs : List Folder} {f : Folder} {a b : String}
    (ha : getFullPath n fs f = some a) (hb : getFullPath m fs f = some b) : a = b := by
  rcases Nat.le_total n m with h | h
  · have h2 := getFullPath_mono n m fs f a h ha
    rw [h2] at hb
    exact Option.some.inj hb
  · have h2 := getFullPath_mono m n fs f b h hb
    rw [h2] at ha
    exact (Option.some.inj ha).symm

theorem getFullPath_append (l : List Folder) : ∀ n (fs : List Folder) (f : Folder)
    (s : String), getFullPath n fs f = some s → getFullPath n (fs ++ l) f = some s := by
  intro n
  induction n with
  | zero => intro fs f s h; exact absurd h (by simp [getFullPath])
  | succ n ih =>
    intro fs f s h
    rcases getFullPath_succ_parts h with ⟨hp, hs⟩ | ⟨pid, p, pp, hp, hf, hg, hs⟩
    · rw [getFullPath_root n (fs ++ l) hp, hs]
    · rw [getFullPath_child2 n (fs ++ l) hp (findFolder_append l hf), ih fs p pp hg, hs]
      rfl

theorem getFullPath_map_same (fs : List Folder) (F : Folder → Folder)
    (hfid : ∀ g ∈ fs, (F g).fid = g.fid)
    (hpar : ∀ g ∈ fs, (F g).parentFolder = g.parentFolder)
    (hnm : ∀ g ∈ fs, (F g).name = g.name) :
    ∀ n f, f ∈ fs → getFullPath n (fs.map F) (F f) = getFullPath n fs f := by
  intro n
  induction n with
  | zero => intro f _; rfl
  | succ n ih =>
    intro f hf
    cases hp : f.parentFolder with
    | none =>
      rw [getFullPath_root n fs hp, getFullPath_root n (fs.map F) (by rw [hpar f hf, hp]),
        hnm f hf]
    | some pid =>
      have hp2 : (F f).parentFolder = some pid := by rw [hpar f hf, hp]
      rw [getFullPath_child n fs hp, getFullPath_child n (fs.map F) hp2,
        findFolder_map hfid pid]
      cases hq : findFolder fs pid with
      | none => rfl
      | some p =>
        have hpmem := (findFolder_mem hq).1
        show ((getFullPath n (fs.map F) (F p)).map fun pp => pp ++ "/" ++ (F f).name) = _
        rw [ih p hpmem, hnm f hf]

theorem renameStep_fid (uid : Nat) (folder : Folder) (nm? d c : Option String)
    (fav : Option Bool) (r : MiniRegex) (np : String) (g : Folder) :
    (renameStep uid folder nm? d c fav r np g).fid = g.fid := by
  unfold renameStep
  by_cases h1 : (g.fid == folder.fid) = true
  · rw [if_pos h1, applyMeta_fid]
    exact (beq_iff_eq.mp h1).symm
  · rw [if_neg h1]
    split
    · rfl
    · rfl

theorem renameStep_target (uid : Nat) (folder : Folder) (nm? d c : Option String)
    (fav : Option Bool) (r : MiniRegex) (np : String) {g : Folder}
    (hg : g.fid = folder.fid) :
    renameStep uid folder nm? d c fav r np g
      = applyMeta { folder with path := np } nm? d c fav := by
  unfold renameStep
  rw [if_pos (beq_iff_eq.mpr hg)]

theorem renameStep_hit (uid : Nat) (folder : Folder) (nm? d c : Option String)
    (fav : Option Bool) (r : MiniRegex) (np : String) {g : Folder}
    (hg : ¬ g.fid = folder.fid)
    (hcond : (g.owner == uid && regexAccepts r g.path.data) = true) :
    renameStep uid folder nm? d c fav r np g
      = { g with path := String.mk (jsReplaceOnce g.path.data folder.path.data np.data) } := by
  unfold renameStep
  rw [if_neg (by simpa using hg), if_pos hcond]

theorem renameStep_skip (uid : Nat) (folder : Folder) (nm? d c : Option String)
    (fav : Option Bool) (r : MiniRegex) (np : String) {g : Folder}
    (hg : ¬ g.fid = folder.fid)
    (hcond : ¬ (g.owner == uid && regexAccepts r g.path.data) = true) :
    renameStep uid folder nm? d c fav r np g = g := by
  unfold renameStep
  rw [if_neg (by simpa using hg), if_neg hcond]

theorem applyMeta_name_falsy (f : Folder) (n d c : Option String) (fav : Option Bool)
    (hn : jsStrTruthy n = false) : (applyMeta f n d c fav).name = f.name := by
  simp only [applyMeta, hn, Bool.false_eq_true, if_false]
  cases fav <;> cases d <;> split_ifs <;> rfl

theorem path_inj {fs : List Folder} {N : Nat}
    (hnodup : NodupIds fs) (hpar : ParentOk fs) (hsib : SibUniq fs)
    (hnames : NamesPlain fs) (hpathN : PathOk N fs) :
    ∀ n (f : Folder), f ∈ fs → ∀ (g : Folder), g ∈ fs → ∀ m, f.owner = g.owner →
      getFullPath n fs f = some f.path → getFullPath m fs g = some g.path →
      f.path = g.path → f = g := by
  intro n
  induction n with
  | zero => intro f _ g _ m _ hf _ _; exact absurd hf (by simp [getFullPath])
  | succ n ih =>
    intro f hf g hg m howner hrf hrg hpatheq
    cases m with
    | zero => exact absurd hrg (by simp [getFullPath])
    | succ m' =>
    rcases getFullPath_succ_parts hrf with ⟨hpf, hsf⟩ | ⟨pid, p, pp, hpf, hff, hgf, hsf⟩
    · rcases getFullPath_succ_parts hrg with ⟨hpg, hsg⟩ | ⟨qid, q, qq, hpg, hfq, hgq, hsg⟩
      · exact hsib f hf g hg howner (by rw [hpf, hpg]) (by rw [← hsf, ← hsg, hpatheq])
      · exfalso
        have hslash : '/' ∈ g.path.data := by
          rw [hsg, pathSplitData]
          exact List.mem_append_right _ (List.mem_cons_self _ _)
        have h1 : f.name = g.path := by rw [← hsf, hpatheq]
        have hfn : '/' ∈ f.name.data := by rw [h1]; exact hslash
        exact ((hnames f hf) '/' hfn).1 rfl
    · rcases getFullPath_succ_parts hrg with ⟨hpg, hsg⟩ | ⟨qid, q, qq, hpg, hfq, hgq, hsg⟩
      · exfalso
        have hslash : '/' ∈ f.path.data := by
          rw [hsf, pathSplitData]
          exact List.mem_append_right _ (List.mem_cons_self _ _)
        have h1 : g.name = f.path := by rw [← hsg, ← hpatheq]
        have hgn : '/' ∈ g.name.data := by rw [h1]; exact hslash
        exact ((hnames g hg) '/' hgn).1 rfl
      · obtain ⟨hpmem, hpfid⟩ := findFolder_mem hff
        obtain ⟨hqmem, hqfid⟩ := findFolder_mem hfq
        have hppval : pp = p.path := getFullPath_funct hgf (hpathN p hpmem)
        have hqqval : qq = q.path := getFullPath_funct hgq (hpathN q hqmem)
        have hfd : f.path.data = p.path.data ++ '/' :: f.name.data := by
          rw [hsf, hppval, pathSplitData]
        have hgd : g.path.data = q.path.data ++ '/' :: g.name.data := by
          rw [hsg, hqqval, pathSplitData]
        have hfslash : '/' ∉ f.name.data := fun hm => ((hnames f hf) '/' hm).1 rfl
        have hgslash : '/' ∉ g.name.data := fun hm => ((hnames g hg) '/' hm).1 rfl
        have heq : p.path.data ++ '/' :: f.name.data
            = q.path.data ++ '/' :: g.name.data := by
          rw [← hfd, ← hgd, hpatheq]
        have hsplit : splitSlash p.path.data ++ [f.name.data]
            = splitSlash q.path.data ++ [g.name.data] := by
          rw [← splitSlash_append _ _ hfslash, ← splitSlash_append _ _ hgslash, heq]
        have hinj := List.append_inj' hsplit rfl
        have hppq : p.path = q.path := strData_inj (by
          have h2 := congrArg joinSlash hinj.1
          rwa [joinSlash_splitSlash, joinSlash_splitSlash] at h2)
        have hnameeq : f.name = g.name := strData_inj (by
          have h2 := hinj.2
          simpa using h2)
        obtain ⟨pr, hprmem, hprfid, hprown⟩ := parentOk_exists hpar hf hpf
        obtain ⟨qr, hqrmem, hqrfid, hqrown⟩ := parentOk_exists hpar hg hpg
        have hppr : p = pr := nodupIds_eq_of_fid_eq hnodup hpmem hprmem (by rw [hpfid, hprfid])
        have hqqr : q = qr := nodupIds_eq_of_fid_eq hnodup hqmem hqrmem (by rw [hqfid, hqrfid])
        have howpq : p.owner = q.owner := by
          rw [hppr, hprown, hqqr, hqrown, howner]
        have hpq : p = q := ih p hpmem q hqmem m' howpq
          (by rw [← hppval]; exact hgf) (by rw [← hqqval]; exact hgq) hppq
        have hpideq : pid = qid := by rw [← hpfid, hpq, hqfid]
        exact hsib f hf g hg howner (by rw [hpf, hpg, hpideq]) hnameeq

theorem dropAppendLe {α : Type} (l1 l2 : List α) {n : Nat} (h : n ≤ l1.length) :
    (l1 ++ l2).drop n = l1.drop n ++ l2 := by
  rw [List.drop_append_eq_append_drop, Nat.sub_eq_zero_of_le h, List.drop_zero]

theorem rename_chain (fs : List Folder) (N uid : Nat) (folder : Folder) (nmT : String)
    (desc? color : Option String) (fav : Option Bool) (S : Folder → Folder)
    (hS : S = renameStep uid folder (some nmT) desc? color fav
        ⟨true, (folder.path.data ++ ['/']).map (fun c => RPiece.once (RAtom.ch c))⟩
        (String.mk (replaceLastSeg folder.path.data nmT.data)))
    (hnodup : NodupIds fs) (hpar : ParentOk fs) (hsib : SibUniq fs)
    (hnames : NamesPlain fs) (hpaths : PathsPlain fs) (hpathN : PathOk N fs)
    (hmem : folder ∈ fs) (howner : folder.owner = uid)
    (hnm : PlainSeg nmT) (hnm0 : nmT ≠ "") :
    ∀ n g, g ∈ fs → getFullPath n fs g = some g.path →
      getFullPath n (fs.map S) (S g) = some (S g).path := by
  have hSfid : ∀ x : Folder, (S x).fid = x.fid := by
    intro x
    rw [hS]
    exact renameStep_fid _ _ _ _ _ _ _ _ _
  have htruthy : jsStrTruthy (some nmT) = true := by
    simp only [jsStrTruthy]
    rw [beq_eq_false_iff_ne.mpr hnm0]
    rfl
  have hStarget : ∀ {x : Folder}, x.fid = folder.fid → S x
      = applyMeta { folder with path := String.mk (replaceLastSeg folder.path.data nmT.data) }
          (some nmT) desc? color fav := by
    intro x hx
    rw [hS]
    exact renameStep_target _ _ _ _ _ _ _ _ hx
  have hTname : (applyMeta
      { folder with path := String.mk (replaceLastSeg folder.path.data nmT.data) }
      (some nmT) desc? color fav).name = nmT := by
    rw [applyMeta_name_truthy _ _ _ _ _ htruthy]
    rfl
  have hTpath : (applyMeta
      { folder with path := String.mk (replaceLastSeg folder.path.data nmT.data) }
      (some nmT) desc? color fav).path
        = String.mk (replaceLastSeg folder.path.data nmT.data) :=
    applyMeta_path _ _ _ _ _
  have hTpar : (applyMeta
      { folder with path := String.mk (replaceLastSeg folder.path.data nmT.data) }
      (some nmT) desc? color fav).parentFolder = folder.parentFolder :=
    applyMeta_parentFolder _ _ _ _ _
  have hnp : (String.mk (replaceLastSeg folder.path.data nmT.data)).data
      = replaceLastSeg folder.path.data nmT.data := rfl
  have hnpdollar : ∀ c ∈ (String.mk (replaceLastSeg folder.path.data nmT.data)).data,
      c ≠ '$' := by
    intro c hc he
    rcases replaceLastSeg_chars _ _ c hc with h | h | h
    · rw [h] at he
      exact absurd he (by decide)
    · exact (hpaths folder hmem c h) (by rw [he]; decide)
    · exact ((hnm c h).2) (by rw [he]; decide)
  have hfpslash : '/' ∉ folder.name.data := fun hm => ((hnames folder hmem) '/' hm).1 rfl
  intro n
  induction n with
  | zero => intro g _ hrun; exact absurd hrun (by simp [getFullPath])
  | succ n ih =>
    intro g hgmem hrun
    by_cases htar : g.fid = folder.fid
    · have hgfol : folder = g := (nodupIds_eq_of_fid_eq hnodup hgmem hmem htar).symm
      subst hgfol
      rcases getFullPath_succ_parts hrun with ⟨hp, hs⟩ | ⟨pid, p, pp, hp, hff, hgf2, hs⟩
      · have hSg := hStarget htar
        have hfpname : folder.path.data = folder.name.data := congrArg String.data hs
        rw [getFullPath_root n (fs.map S) (by rw [hSg, hTpar]; exact hp), hSg, hTname,
          hTpath, hfpname, replaceLastSeg_flat _ _ hfpslash, strMk_data]
      · obtain ⟨hpmem, hpfid⟩ := findFolder_mem hff
        have hppval : pp = p.path := getFullPath_funct hgf2 (hpathN p hpmem)
        have hchild : folder.path.data = p.path.data ++ '/' :: folder.name.data := by
          rw [hs, hppval, pathSplitData]
        have hpner : p.fid ≠ folder.fid := by
          intro he
          have hpf : p = folder := nodupIds_eq_of_fid_eq hnodup hpmem hmem he
          have hlen := congrArg List.length hchild
          rw [hpf] at hlen
          simp only [List.length_append, List.length_cons] at hlen
          omega
        have hSp : S p = p := by
          rw [hS]
          apply renameStep_skip _ _ _ _ _ _ _ _ hpner
          intro hx
          rw [Bool.and_eq_true, regexAccepts_literal] at hx
          have hlp := isPrefixOf_length_le hx.2
          have hlen := congrArg List.length hchild
          simp only [List.length_append, List.length_cons] at hlen hlp
          omega
        have hSg := hStarget htar
        have hfind2 : findFolder (fs.map S) pid = some (S p) := by
          rw [findFolder_map (fun x _ => hSfid x) pid, hff]
          rfl
        rw [getFullPath_child2 n (fs.map S) (by rw [hSg, hTpar]; exact hp) hfind2,
          ih p hpmem (by rw [← hppval]; exact hgf2), hSp]
        show some (p.path ++ "/" ++ (S folder).name) = some (S folder).path
        refine congrArg some (strData_inj ?_)
        rw [pathSplitData, hSg, hTname, hTpath, hnp, hchild,
          replaceLastSeg_append _ _ hfpslash]
    · by_cases hcnd : (g.owner == uid
          && (folder.path.data ++ ['/']).isPrefixOf g.path.data) = true
      · have hcnd' : (g.owner == uid && regexAccepts
            ⟨true, (folder.path.data ++ ['/']).map (fun c => RPiece.once (RAtom.ch c))⟩
            g.path.data) = true := by
          rw [regexAccepts_literal]
          exact hcnd
        have hSg : S g = { g with path := String.mk (jsReplaceOnce g.path.data
            folder.path.data (String.mk (replaceLastSeg folder.path.data nmT.data)).data) } := by
          rw [hS]
          exact renameStep_hit _ _ _ _ _ _ _ _ htar hcnd'
        obtain ⟨hgo, hgpre⟩ : g.owner = uid
            ∧ (folder.path.data ++ ['/']).isPrefixOf g.path.data = true := by
          rw [Bool.and_eq_true, beq_iff_eq] at hcnd
          exact hcnd
        have hfp_pre : folder.path.data.isPrefixOf g.path.data = true :=
          isPrefixOf_of_append hgpre
        have hSgpath : (S g).path.data
            = (String.mk (replaceLastSeg folder.path.data nmT.data)).data
                ++ g.path.data.drop folder.path.data.length := by
          rw [hSg]
          show jsReplaceOnce g.path.data folder.path.data
              (String.mk (replaceLastSeg folder.path.data nmT.data)).data = _
          rw [jsReplaceOnce_front _ _ _ hfp_pre hnpdollar]
        have hgname : (S g).name = g.name := by rw [hSg]
        rcases getFullPath_succ_parts hrun with ⟨hp, hs⟩ | ⟨pid, p, pp, hp, hff, hgf2, hs⟩
        · exfalso
          have hsl : '/' ∈ g.path.data :=
            mem_of_isPrefixOf hgpre (List.mem_append_right _ (List.mem_singleton.mpr rfl))
          have hnm2 : '/' ∈ g.name.data := by
            rw [← congrArg String.data hs]
            exact hsl
          exact ((hnames g hgmem) '/' hnm2).1 rfl
        · obtain ⟨hpmem, hpfid⟩ := findFolder_mem hff
          have hppval : pp = p.path := getFullPath_funct hgf2 (hpathN p hpmem)
          have hchild : g.path.data = p.path.data ++ '/' :: g.name.data := by
            rw [hs, hppval, pathSplitData]
          have hgslash : '/' ∉ g.name.data := fun hm => ((hnames g hgmem) '/' hm).1 rfl
          have hpown : p.owner = g.owner := by
            obtain ⟨pr, hprmem, hprfid, hprown⟩ := parentOk_exists hpar hgmem hp
            rw [nodupIds_eq_of_fid_eq hnodup hpmem hprmem (by rw [hpfid, hprfid]), hprown]
          have hdich := isPrefixOf_slash_cases folder.path.data p.path.data hgslash
            (by rw [← hchild]; exact hgpre)
          have hSgpar : (S g).parentFolder = some pid := by
            rw [hSg]
            exact hp
          have hfind2 : findFolder (fs.map S) pid = some (S p) := by
            rw [findFolder_map (fun x _ => hSfid x) pid, hff]
            rfl
          rcases hdich with heqp | hpre2
          · have hpf : p = folder := by
              apply path_inj hnodup hpar hsib hnames hpathN N p hpmem folder hmem N
              · rw [hpown, hgo, howner]
              · exact hpathN p hpmem
              · exact hpathN folder hmem
              · exact strData_inj heqp.symm
            have hSp := hStarget (show p.fid = folder.fid by rw [hpf])
            rw [hpf] at hchild
            rw [getFullPath_child2 n (fs.map S) hSgpar hfind2,
              ih p hpmem (by rw [← hppval]; exact hgf2)]
            show some ((S p).path ++ "/" ++ (S g).name) = some (S g).path
            refine congrArg some (strData_inj ?_)
            rw [pathSplitData, hSp, hTpath, hgname, hSgpath, hchild, List.drop_left]
          · have hpner : p.fid ≠ folder.fid := by
              intro he
              have hpf : p = folder := nodupIds_eq_of_fid_eq hnodup hpmem hmem he
              rw [hpf] at hpre2
              have hlp := isPrefixOf_length_le hpre2
              simp only [List.length_append, List.length_cons] at hlp
              omega
            have hcndp : (p.owner == uid && regexAccepts
                ⟨true, (folder.path.data ++ ['/']).map (fun c => RPiece.once (RAtom.ch c))⟩
                p.path.data) = true := by
              rw [regexAccepts_literal, Bool.and_eq_true, beq_iff_eq]
              exact ⟨by rw [hpown, hgo], hpre2⟩
            have hSp : S p = { p with path := String.mk (jsReplaceOnce p.path.data
                folder.path.data
                (String.mk (replaceLastSeg folder.path.data nmT.data)).data) } := by
              rw [hS]
              exact renameStep_hit _ _ _ _ _ _ _ _ hpner hcndp
            have hlefp : folder.path.data.length ≤ p.path.data.length :=
              isPrefixOf_length_le (isPrefixOf_of_append hpre2)
            have hSppath : (S p).path.data
                = (String.mk (replaceLastSeg folder.path.data nmT.data)).data
                    ++ p.path.data.drop folder.path.data.length := by
              rw [hSp]
              show jsReplaceOnce p.path.data folder.path.data
                  (String.mk (replaceLastSeg folder.path.data nmT.data)).data = _
              rw [jsReplaceOnce_front _ _ _ (isPrefixOf_of_append hpre2) hnpdollar]
            rw [getFullPath_child2 n (fs.map S) hSgpar hfind2,
              ih p hpmem (by rw [← hppval]; exact hgf2)]
            show some ((S p).path ++ "/" ++ (S g).name) = some (S g).path
            refine congrArg some (strData_inj ?_)
            rw [pathSplitData, hSppath, hgname, hSgpath, hchild,
              dropAppendLe _ _ hlefp, List.append_assoc]
      · have hSg : S g = g := by
          rw [hS]
          apply renameStep_skip _ _ _ _ _ _ _ _ htar
          intro hx
          rw [regexAccepts_literal] at hx
          exact hcnd hx
        rcases getFullPath_succ_parts hrun with ⟨hp, hs⟩ | ⟨pid, p, pp, hp, hff, hgf2, hs⟩
        · rw [hSg, getFullPath_root n (fs.map S) hp, hs]
        · obtain ⟨hpmem, hpfid⟩ := findFolder_mem hff
          have hppval : pp = p.path := getFullPath_funct hgf2 (hpathN p hpmem)
          have hchild : g.path.data = p.path.data ++ '/' :: g.name.data := by
            rw [hs, hppval, pathSplitData]
          have hpown : p.owner = g.owner := by
            obtain ⟨pr, hprmem, hprfid, hprown⟩ := parentOk_exists hpar hgmem hp
            rw [nodupIds_eq_of_fid_eq hnodup hpmem hprmem (by rw [hpfid, hprfid]), hprown]
          have hSp : S p = p := by
            by_cases hpt : p.fid = folder.fid
            · exfalso
              have hpf : p = folder := nodupIds_eq_of_fid_eq hnodup hpmem hmem hpt
              apply hcnd
              rw [Bool.and_eq_true, beq_iff_eq]
              refine ⟨by rw [← hpown, hpf, howner], ?_⟩
              rw [hchild, hpf]
              rw [ List.isPrefixOf_iff_prefix]
              exact ⟨g.name.data, by simp⟩
            · rw [hS]
              apply renameStep_skip _ _ _ _ _ _ _ _ hpt
              intro hx
              rw [regexAccepts_literal] at hx
              rw [Bool.and_eq_true, beq_iff_eq] at hx
              apply hcnd
              rw [Bool.and_eq_true, beq_iff_eq]
              refine ⟨by rw [← hpown]; exact hx.1, ?_⟩
              rw [hchild]
              exact isPrefixOf_append_right _ hx.2
          have hfind2 : findFolder (fs.map S) pid = some (S p) := by
            rw [findFolder_map (fun x _ => hSfid x) pid, hff]
            rfl
          rw [hSg, getFullPath_child2 n (fs.map S) hp hfind2,
            ih p hpmem (by rw [← hppval]; exact hgf2), hSp]
          show some (p.path ++ "/" ++ g.name) = some g.path
          refine congrArg some (strData_inj ?_)
          rw [pathSplitData, hchild]

theorem create_pathOk (db : DB) (N : Nat) (hnodup : NodupIds db.folders)
    (hpath : PathOk N db.folders) :
    ∀ uid nm d pf col db1 f, createFolder db uid nm d pf col = Except.ok (db1, f) →
      PathOk (N + 1) db1.folders := by
  intro uid nm d pf col db1 f hsucc
  unfold createFolder at hsucc
  split at hsucc
  · exact Except.noConfusion hsucc
  · dsimp only [] at hsucc
    cases pf with
    | none =>
      by_cases hdup : ((db.folders.find? (fun g => g.name == jsTrim nm && g.owner == uid
          && g.parentFolder == (none : Option Nat))).isSome) = true
      · rw [if_pos hdup] at hsucc
        exact Except.noConfusion hsucc
      · rw [if_neg hdup] at hsucc
        have hsucc2 : (Except.ok ((⟨db.folders ++ [⟨db.nextId, jsTrim nm, d.map jsTrim,
            uid, none, jsTrim nm, false,
            if jsStrTruthy col then col.getD "" else "#3B82F6"⟩],
            db.files, db.notes, db.users, db.blobs, db.nextId + 1⟩ : DB),
            (⟨db.nextId, jsTrim nm, d.map jsTrim, uid, none, jsTrim nm, false,
            if jsStrTruthy col then col.getD "" else "#3B82F6"⟩ : Folder))
          : Except ApiErr (DB × Folder)) = Except.ok (db1, f) := hsucc
        rw [Except.ok.injEq, Prod.mk.injEq] at hsucc2
        obtain ⟨hdb1, hf⟩ := hsucc2
        subst hdb1
        intro g hg
        rcases List.mem_append.mp hg with hgl | hgr
        · exact getFullPath_mono N (N + 1) _ g g.path (by omega)
            (getFullPath_append _ N db.folders g g.path (hpath g hgl))
        · rw [List.mem_singleton] at hgr
          subst hgr
          rw [getFullPath_root N _ rfl]
      | some pid =>
      by_cases hdup : ((db.folders.find? (fun g => g.name == jsTrim nm && g.owner == uid
          && g.parentFolder == some pid)).isSome) = true
      · rw [if_pos hdup] at hsucc
        exact Except.noConfusion hsucc
      · rw [if_neg hdup] at hsucc
        dsimp only [] at hsucc
        cases hfind : db.folders.find? (fun g => g.fid == pid && g.owner == uid) with
        | none =>
          rw [hfind] at hsucc
          exact Except.noConfusion hsucc
        | some parent =>
          rw [hfind] at hsucc
          have hpmem : parent ∈ db.folders := List.mem_of_find?_eq_some hfind
          have hppred := List.find?_some hfind
          rw [Bool.and_eq_true, beq_iff_eq, beq_iff_eq] at hppred
          have hsucc2 : (Except.ok ((⟨db.folders ++ [⟨db.nextId, jsTrim nm, d.map jsTrim,
              uid, some pid, parent.path ++ "/" ++ jsTrim nm, false,
              if jsStrTruthy col then col.getD "" else "#3B82F6"⟩],
              db.files, db.notes, db.users, db.blobs, db.nextId + 1⟩ : DB),
              (⟨db.nextId, jsTrim nm, d.map jsTrim, uid, some pid,
              parent.path ++ "/" ++ jsTrim nm, false,
              if jsStrTruthy col then col.getD "" else "#3B82F6"⟩ : Folder))
            : Except ApiErr (DB × Folder)) = Except.ok (db1, f) := hsucc
          rw [Except.ok.injEq, Prod.mk.injEq] at hsucc2
          obtain ⟨hdb1, hf⟩ := hsucc2
          subst hdb1
          intro g hg
          rcases List.mem_append.mp hg with hgl | hgr
          · exact getFullPath_mono N (N + 1) _ g g.path (by omega)
              (getFullPath_append _ N db.folders g g.path (hpath g hgl))
          · rw [List.mem_singleton] at hgr
            subst hgr
            rw [getFullPath_child2 N _ rfl
                (findFolder_append _ (findFolder_of_mem hnodup hpmem hppred.1)),
              getFullPath_append _ N db.folders parent parent.path (hpath parent hpmem)]
            rfl

theorem metaStep_pathOk {fs : List Folder} {N : Nat} (hnodup : NodupIds fs)
    (hpath : PathOk N fs) (folder : Folder) (hfmem : folder ∈ fs)
    (nm? d? c? : Option String) (fav : Option Bool)
    (hname : (applyMeta folder nm? d? c? fav).name = folder.name) :
    PathOk N (fs.map (fun g =>
      if g.fid == folder.fid then applyMeta folder nm? d? c? fav else g)) := by
  have hfidm : ∀ x ∈ fs,
      (if x.fid == folder.fid then applyMeta folder nm? d? c? fav else x).fid = x.fid := by
    intro x _
    by_cases hx : (x.fid == folder.fid) = true
    · rw [if_pos hx, applyMeta_fid]
      exact (beq_iff_eq.mp hx).symm
    · rw [if_neg hx]
  have hparm : ∀ x ∈ fs,
      (if x.fid == folder.fid then applyMeta folder nm? d? c? fav else x).parentFolder
        = x.parentFolder := by
    intro x hx
    by_cases h2 : (x.fid == folder.fid) = true
    · have hxf : x = folder := nodupIds_eq_of_fid_eq hnodup hx hfmem (beq_iff_eq.mp h2)
      rw [if_pos h2, applyMeta_parentFolder, hxf]
    · rw [if_neg h2]
  have hnamem : ∀ x ∈ fs,
      (if x.fid == folder.fid then applyMeta folder nm? d? c? fav else x).name
        = x.name := by
    intro x hx
    by_cases h2 : (x.fid == folder.fid) = true
    · have hxf : x = folder := nodupIds_eq_of_fid_eq hnodup hx hfmem (beq_iff_eq.mp h2)
      rw [if_pos h2, hname, hxf]
    · rw [if_neg h2]
  have hpathm : ∀ x ∈ fs,
      (if x.fid == folder.fid then applyMeta folder nm? d? c? fav else x).path
        = x.path := by
    intro x hx
    by_cases h2 : (x.fid == folder.fid) = true
    · have hxf : x = folder := nodupIds_eq_of_fid_eq hnodup hx hfmem (beq_iff_eq.mp h2)
      rw [if_pos h2, applyMeta_path, hxf]
    · rw [if_neg h2]
  intro f2 hf2
  obtain ⟨g, hgmem, hgf2⟩ := List.mem_map.mp hf2
  subst hgf2
  rw [getFullPath_map_same fs _ hfidm hparm hnamem N g hgmem]
  rw [show ((fun g2 => if g2.fid == folder.fid then applyMeta folder nm? d? c? fav
      else g2) g).path = g.path from hpathm g hgmem]
  exact hpath g hgmem

theorem update_pathOk (db : DB) (N : Nat)
    (hnodup : NodupIds db.folders) (hpar : ParentOk db.folders)
    (hsib : SibUniq db.folders) (hnames : NamesPlain db.folders)
    (hpaths : PathsPlain db.folders) (hpath : PathOk N db.folders) :
    ∀ uid fid nm d col fav db1, PlainSeg (jsTrim nm) →
      updateFolder db uid fid (some nm) d col fav = Except.ok db1 →
      PathOk N db1.folders := by
  intro uid fid nm d col fav db1 hplain hsucc
  unfold updateFolder at hsucc
  split at hsucc
  · exact Except.noConfusion hsucc
  · dsimp only [Option.map] at hsucc
    cases hfind : db.folders.find? (fun g => g.fid == fid && g.owner == uid) with
    | none =>
      rw [hfind] at hsucc
      exact Except.noConfusion hsucc
    | some folder =>
      rw [hfind] at hsucc
      dsimp only [Option.getD] at hsucc
      have hfmem : folder ∈ db.folders := List.mem_of_find?_eq_some hfind
      have hfpred := List.find?_some hfind
      rw [Bool.and_eq_true, beq_iff_eq, beq_iff_eq] at hfpred
      by_cases hdoR : (!(jsTrim nm == "") && !(jsTrim nm == folder.name)) = true
      · rw [if_pos hdoR] at hsucc
        have hnm0 : jsTrim nm ≠ "" := by
          intro he
          rw [he] at hdoR
          simp at hdoR
        by_cases hdup : ((db.folders.find? (fun g => g.name == jsTrim nm && g.owner == uid
            && g.parentFolder == folder.parentFolder && !(g.fid == folder.fid))).isSome)
            = true
        · rw [if_pos hdup] at hsucc
          exact Except.noConfusion hsucc
        · rw [if_neg hdup] at hsucc
          have hplainP2 : ∀ c2 ∈ folder.path.data ++ ['/'], c2 ∉ regexMeta := by
            intro c2 hc2
            rcases List.mem_append.mp hc2 with h | h
            · exact hpaths folder hfmem c2 h
            · simp only [List.mem_singleton] at h
              subst h
              decide
          have hr : parseMongoRegex ('^' :: folder.path.data ++ ['/'])
              = some ⟨true, (folder.path.data ++ ['/']).map
                  (fun c2 => RPiece.once (RAtom.ch c2))⟩ := by
            rw [List.cons_append]
            exact parseMongoRegex_plain _ hplainP2
          rw [hr] at hsucc
          dsimp only [] at hsucc
          rw [Except.ok.injEq] at hsucc
          have hdb1 : db1.folders = db.folders.map (renameStep uid folder
              (some (jsTrim nm)) (d.map jsTrim) col fav
              ⟨true, (folder.path.data ++ ['/']).map (fun c2 => RPiece.once (RAtom.ch c2))⟩
              (String.mk (replaceLastSeg folder.path.data (jsTrim nm).data))) := by
            rw [← hsucc]
            show (db.folders.map (fun g =>
                if (g.owner == uid && regexAccepts
                ⟨true, (folder.path.data ++ ['/']).map (fun c2 => RPiece.once (RAtom.ch c2))⟩ g.path.data) then
                  { g with path := String.mk (jsReplaceOnce g.path.data folder.path.data
                    (String.mk (replaceLastSeg folder.path.data (jsTrim nm).data)).data) }
                else g)).map (fun g => if g.fid == folder.fid then
                  applyMeta { folder with
                    path := String.mk (replaceLastSeg folder.path.data (jsTrim nm).data) }
                  (some (jsTrim nm)) (d.map jsTrim) col fav
                else g) = _
            rw [List.map_map]
            refine congrArg (fun F => List.map F db.folders) (funext fun g => ?_)
            show (if (if (g.owner == uid && regexAccepts
                ⟨true, (folder.path.data ++ ['/']).map (fun c2 => RPiece.once (RAtom.ch c2))⟩ g.path.data) then
                  { g with path := String.mk (jsReplaceOnce g.path.data folder.path.data
                    (String.mk (replaceLastSeg folder.path.data (jsTrim nm).data)).data) }
                else g).fid == folder.fid then
                  applyMeta { folder with
                    path := String.mk (replaceLastSeg folder.path.data (jsTrim nm).data) }
                  (some (jsTrim nm)) (d.map jsTrim) col fav
                else (if (g.owner == uid && regexAccepts
                ⟨true, (folder.path.data ++ ['/']).map (fun c2 => RPiece.once (RAtom.ch c2))⟩ g.path.data) then
                  { g with path := String.mk (jsReplaceOnce g.path.data folder.path.data
                    (String.mk (replaceLastSeg folder.path.data (jsTrim nm).data)).data) }
                else g)) = _
            unfold renameStep
            by_cases h2 : (g.owner == uid && regexAccepts
                ⟨true, (folder.path.data ++ ['/']).map (fun c2 => RPiece.once (RAtom.ch c2))⟩ g.path.data) = true
            · rw [if_pos h2]
            · rw [if_neg h2]
          rw [hdb1]
          intro f2 hf2
          obtain ⟨g, hgmem, rfl⟩ := List.mem_map.mp hf2
          exact rename_chain db.folders N uid folder (jsTrim nm) (d.map jsTrim) col fav
            _ rfl hnodup hpar hsib hnames hpaths hpath hfmem hfpred.2 hplain hnm0
            N g hgmem (hpath g hgmem)
      · have hdoR2 : (!(jsTrim nm == "") && !(jsTrim nm == folder.name)) = false := by
          cases hb : (!(jsTrim nm == "") && !(jsTrim nm == folder.name)) with
          | true => exact absurd hb hdoR
          | false => rfl
        rw [if_neg hdoR] at hsucc
        rw [Except.ok.injEq] at hsucc
        have hcases : jsTrim nm = "" ∨ jsTrim nm = folder.name := by
          by_contra hno
          push_neg at hno
          apply hdoR
          rw [Bool.and_eq_true]
          refine ⟨?_, ?_⟩
          · rw [beq_eq_false_iff_ne.mpr hno.1]
            rfl
          · rw [beq_eq_false_iff_ne.mpr hno.2]
            rfl
        have hname : (applyMeta folder (some (jsTrim nm)) (d.map jsTrim) col fav).name
            = folder.name := by
          rcases hcases with he | he
          · apply applyMeta_name_falsy
            rw [he]
            rfl
          · exact applyMeta_name_of_same _ _ _ _ _ (Or.inr (by rw [he]))
        have hdb1 : db1.folders = db.folders.map (fun g =>
            if g.fid == folder.fid then
              applyMeta folder (some (jsTrim nm)) (d.map jsTrim) col fav
            else g) := (congrArg DB.folders hsucc).symm
        rw [hdb1]
        exact metaStep_pathOk hnodup hpath folder hfmem _ _ _ _ hname

/-- Claim C1 (amended): in a well-formed folder store — unique ids, every
parent exists with the same owner, the sibling-uniqueness index holds, and
every folder name is free of `/` and of PCRE metacharacters — the path
invariant survives both routes: after a successful create every folder's
`getFullPath` walk still returns exactly its stored `path` (the new folder
needs one more step of fuel), and after a successful PUT whose supplied
trimmed name is also `/`- and metacharacter-free it holds at unchanged
fuel.  As literally stated the claim is false, because validation lets
folder names contain `/` (see `C1_counterexample`). -/
theorem C1_path_invariant (db : DB) (N : Nat)
    (hnodup : NodupIds db.folders) (hpar : ParentOk db.folders)
    (hsib : SibUniq db.folders) (hnames : NamesPlain db.folders)
    (hpaths : PathsPlain db.folders) (hpath : PathOk N db.folders) :
    (∀ uid nm d pf col db1 f, createFolder db uid nm d pf col = Except.ok (db1, f) →
      PathOk (N + 1) db1.folders) ∧
    (∀ uid fid nm d col fav db1, PlainSeg (jsTrim nm) →
      updateFolder db uid fid (some nm) d col fav = Except.ok db1 →
      PathOk N db1.folders) :=
  ⟨create_pathOk db N hnodup hpath,
   update_pathOk db N hnodup hpar hsib hnames hpaths hpath⟩

/-- Witness for (amended) claim C1: in `dbNested` ("A" ⊃ "B"), renaming "B"
(fid 2) to "B2" succeeds and the resulting store still satisfies the
`getFullPath`-equals-`path` invariant at fuel 2. -/
theorem C1_path_invariant_witness :
    PathOk 2 [⟨1, "A", none, 7, none, "A", false, "c"⟩,
      ⟨2, "B2", none, 7, some 1, "A/B2", false, "c"⟩] :=
  (C1_path_invariant dbNested 2 (by unfold NodupIds; decide) (by unfold ParentOk; decide)
      (by unfold SibUniq; decide) (by unfold NamesPlain PlainSeg; decide)
      (by unfold PathsPlain; decide) (by unfold PathOk; decide)).2 7 2 "B2" none none none
    ⟨[⟨1, "A", none, 7, none, "A", false, "c"⟩,
      ⟨2, "B2", none, 7, some 1, "A/B2", false, "c"⟩],
     dbNested.files, dbNested.notes, dbNested.users, dbNested.blobs, dbNested.nextId⟩
    (by unfold PlainSeg; decide) rfl

/-- Counterexample to claim C1 as stated: folder names may contain `/`
(validation only bounds the trimmed length).  Creating root folder "y/z"
(stored path "y/z") and then renaming it to "w" stores path "y/w" — the
rename rewrites only the last `/`-segment of the stored path — while the
`parentFolder` walk of `getFullPath` returns "w": after a create followed
by a rename the stored path and the ancestor chain disagree. -/
theorem C1_counterexample :
    createFolder dbEmpty 7 "y/z" none none none
      = Except.ok (⟨[⟨1, "y/z", none, 7, none, "y/z", false, "#3B82F6"⟩],
          [], [], [uEx], [], 2⟩,
          ⟨1, "y/z", none, 7, none, "y/z", false, "#3B82F6"⟩) ∧
    updateFolder ⟨[⟨1, "y/z", none, 7, none, "y/z", false, "#3B82F6"⟩],
        [], [], [uEx], [], 2⟩ 7 1 (some "w") none none none
      = Except.ok ⟨[⟨1, "w", none, 7, none, "y/w", false, "#3B82F6"⟩],
          [], [], [uEx], [], 2⟩ ∧
    getFullPath 9 [⟨1, "w", none, 7, none, "y/w", false, "#3B82F6"⟩]
        ⟨1, "w", none, 7, none, "y/w", false, "#3B82F6"⟩ = some "w" ∧
    (⟨1, "w", none, 7, none, "y/w", false, "#3B82F6"⟩ : Folder).path = "y/w" ∧
    ("w" : String) ≠ "y/w" :=
  ⟨rfl, rfl, rfl, rfl, by decide⟩

end SMS
